import Mathlib

namespace Iavl

/-!  Shallow embedding of the `iavl` TypeScript library: the node model and the
AVL+ algorithms of `src/node.ts`, the tree facade of `src/tree.ts`, the store of
`src/store.ts` and the neighbor search of `src/ics23.ts`.

Byte strings (`Buffer`) are modelled as lists of naturals compared bytewise
(`Buffer.compare`).  SHA-256 over the tagged fixed-width concatenations used by
the library (`sha256(u32be(version), key, value)` for leaves and
`sha256(u32be(version), leftHash, rightHash)` for branches, where `u32be` is
injective for versions below 2^32 and the two hash arguments have a fixed width
of 32 bytes) is modelled as a free term algebra, the standard collision-free
idealization of a cryptographic hash.  The value codec (`msgpackr`) is treated
as the identity on already-packed byte strings, per its documented byte-stable
round-trip property.

Lazy child references (`leftHash`/`_left`) are modelled with children always
materialized: the lmdb `getNode` lookup by the recorded child hash returns
exactly the persisted child, so materialization never changes the logical tree,
and the `leftHash`/`rightHash` fields are carried explicitly just as in the
source.  The strict-inequality dirty check `this.leftHash !== node.hash`
compares buffer identities in JS; in every reachable state the buffers compared
are physically shared by the getter/`fromCompact`, so identity coincides with
byte equality, which is what the model uses. -/

/-- Byte strings (Node.js `Buffer`). -/
abbrev Bytes := List Nat

/-- Result of `a.compare(b)` on buffers: bytewise memcmp order, a proper prefix
sorts before its extensions. -/
def bufCompare : Bytes → Bytes → Ordering
  | [], [] => .eq
  | [], _ :: _ => .lt
  | _ :: _, [] => .gt
  | a :: as, b :: bs => if a < b then .lt else if b < a then .gt else bufCompare as bs

/-- Strict key order, `key.compare(other) === -1` in the source. -/
def kLt (a b : Bytes) : Prop := bufCompare a b = .lt

instance decKLt (a b : Bytes) : Decidable (kLt a b) := by
  unfold kLt; infer_instance

/-- Free term algebra standing in for the SHA-256 digests computed by
`src/util.ts`: `hLeaf v k val` is `sha256(u32be(v), k, val)` and
`hBranch v a b` is `sha256(u32be(v), a, b)`.  `missing` stands for a JS
`undefined` flowing into a non-null assertion; it never arises in the states
the theorems quantify over. -/
inductive Hash
  | missing
  | hLeaf (version : Nat) (key value : Bytes)
  | hBranch (version : Nat) (leftHash rightHash : Hash)
deriving DecidableEq

/-- Models the non-null assertions `this.leftHash!` etc. before hashing. -/
def Hash.fromOpt : Option Hash → Hash
  | some h => h
  | none => .missing

/-- In-memory nodes: the `Leaf` and `Branch` classes of `src/node.ts`, with all
constructor fields carried explicitly (children materialized, see above). -/
inductive PNode
  | leaf (key value : Bytes) (version : Option Nat) (hash : Option Hash) (isDirty : Bool)
  | branch (key : Bytes) (version : Option Nat) (leftHeight rightHeight : Nat)
      (leftHash rightHash : Option Hash) (left right : PNode)
      (hash : Option Hash) (isDirty : Bool)
deriving DecidableEq

namespace PNode

/-- Node height: 1 for a leaf, `1 + Math.max(leftHeight, rightHeight)` for a
branch (computed from the stored subtree heights, as in the source). -/
def height : PNode → Nat
  | .leaf .. => 1
  | .branch _ _ lh rh _ _ _ _ _ _ => 1 + max lh rh

/-- The `key` field of either node kind. -/
def pkey : PNode → Bytes
  | .leaf k _ _ _ _ => k
  | .branch k _ _ _ _ _ _ _ _ _ => k

/-- The `value` field of a leaf (junk on a branch, which carries no value). -/
def pval : PNode → Bytes
  | .leaf _ v _ _ _ => v
  | .branch .. => []

/-- The `isDirty` flag. -/
def dirty : PNode → Bool
  | .leaf _ _ _ _ d => d
  | .branch _ _ _ _ _ _ _ _ _ d => d

/-- The `hash` field. -/
def hashOpt : PNode → Option Hash
  | .leaf _ _ _ h _ => h
  | .branch _ _ _ _ _ _ _ _ h _ => h

/-- The `version` field. -/
def versionOpt : PNode → Option Nat
  | .leaf _ _ v _ _ => v
  | .branch _ v _ _ _ _ _ _ _ _ => v

/-- The `left` setter of `Branch`: stores the node, refreshes `leftHeight`,
marks dirty when the node was dirty or its hash differs from the recorded
`leftHash`, and deletes `leftHash`. -/
def setLeft (n child : PNode) : PNode :=
  match n with
  | .branch k ver _ rh lH rH _ r h d =>
      .branch k ver child.height rh none rH child r h
        (d || child.dirty || decide (lH ≠ child.hashOpt))
  | other => other

/-- The `right` setter of `Branch`, symmetric to `setLeft`. -/
def setRight (n child : PNode) : PNode :=
  match n with
  | .branch k ver lh _ lH rH l _ h d =>
      .branch k ver lh child.height lH none l child h
        (d || child.dirty || decide (rH ≠ child.hashOpt))
  | other => other

/-- Plain assignment `this.key = ...` in `Branch.remove` (note: it does not
touch the dirty flag). -/
def setKey (n : PNode) (newKey : Bytes) : PNode :=
  match n with
  | .branch _ ver lh rh lH rH l r h d => .branch newKey ver lh rh lH rH l r h d
  | other => other

/-- Models `new Branch(store, key)` (no hash, hence dirty) immediately followed
by the `left` and `right` setter assignments, the construction sequence used in
`Leaf.insert`. -/
def newBranch (key : Bytes) (l r : PNode) : PNode :=
  .branch key none l.height r.height none none l r none true

/-- The private `balanceFactor` getter: `leftHeight - rightHeight` (junk 0 on a
leaf, where the source would read `undefined`). -/
def balanceFactor : PNode → Int
  | .branch _ _ lh rh _ _ _ _ _ _ => (lh : Int) - (rh : Int)
  | .leaf .. => 0

/-- `Branch.leftRotation`: the right child becomes the new root.  The model
takes the materialized arm of the `root._left` test (children are always
materialized here); the other arm copies the same hash/height data by hand. -/
def leftRotation (n : PNode) : PNode :=
  match n with
  | .branch k ver lh rh lH rH l r h d =>
      match r with
      | .branch rk rver rlh rrh rlH rrH rl rr rh2 rd =>
          setLeft (.branch rk rver rlh rrh rlH rrH rl rr rh2 rd)
            (setRight (.branch k ver lh rh lH rH l r h d) rl)
      | _ => .branch k ver lh rh lH rH l r h d
  | other => other

/-- `Branch.rightRotation`, symmetric to `leftRotation`. -/
def rightRotation (n : PNode) : PNode :=
  match n with
  | .branch k ver lh rh lH rH l r h d =>
      match l with
      | .branch lk lver llh lrh llH lrH ll lr lh2 ld =>
          setRight (.branch lk lver llh lrh llH lrH ll lr lh2 ld)
            (setLeft (.branch k ver lh rh lH rH l r h d) lr)
      | _ => .branch k ver lh rh lH rH l r h d
  | other => other

/-- `Branch.balance`: single or double rotation on balance factor 2 / -2. -/
def balance (n : PNode) : PNode :=
  match n with
  | .branch k ver lh rh lH rH l r h d =>
      if (lh : Int) - (rh : Int) = 2 then
        rightRotation
          (if balanceFactor l < 0 then
            setLeft (.branch k ver lh rh lH rH l r h d) (leftRotation l)
          else .branch k ver lh rh lH rH l r h d)
      else if (lh : Int) - (rh : Int) = -2 then
        leftRotation
          (if 0 < balanceFactor r then
            setRight (.branch k ver lh rh lH rH l r h d) (rightRotation r)
          else .branch k ver lh rh lH rH l r h d)
      else .branch k ver lh rh lH rH l r h d
  | other => other

/-- `Leaf.insert` / `Branch.insert` combined on the node type. -/
def insert : PNode → Bytes → Bytes → PNode
  | .leaf k v ver h d, key, value =>
      match bufCompare key k with
      | .lt => newBranch k (.leaf key value none none true) (.leaf k v ver h d)
      | .gt => newBranch key (.leaf k v ver h d) (.leaf key value none none true)
      | .eq => .leaf k value ver h true
  | .branch k ver lh rh lH rH l r h d, key, value =>
      match bufCompare key k with
      | .lt => balance (setLeft (.branch k ver lh rh lH rH l r h d) (insert l key value))
      | _ => balance (setRight (.branch k ver lh rh lH rH l r h d) (insert r key value))

/-- `Node.leftmost`: a leaf returns itself, a branch recurses left. -/
def leftmost : PNode → PNode
  | .leaf k v ver h d => .leaf k v ver h d
  | .branch _ _ _ _ _ _ l _ _ _ => leftmost l

/-- A call `store.putOrphan(node.hash!, node.version!)`, recorded as the raw
field values. -/
abbrev OrphanEvt := Option Hash × Option Nat

/-- `Leaf.remove` / `Branch.remove` combined; the second component lists the
`putOrphan` calls in order. -/
def remove : PNode → Bytes → Option PNode × List OrphanEvt
  | .leaf k v ver h d, key =>
      if bufCompare key k = .eq then (none, [(h, ver)])
      else (some (.leaf k v ver h d), [])
  | .branch k ver lh rh lH rH l r h d, key =>
      if bufCompare key k = .lt then
        match remove l key with
        | (some l1, os) =>
            (some (balance (setLeft (.branch k ver lh rh lH rH l r h d) l1)), os)
        | (none, os) => (some r, os ++ [(h, ver)])
      else
        match remove r key with
        | (some r1, os) =>
            let n1 := setRight (.branch k ver lh rh lH rH l r h d) r1
            let n2 := if bufCompare key k = .eq then setKey n1 (pkey (leftmost r1)) else n1
            (some (balance n2), os)
        | (none, os) => (some l, os ++ [(h, ver)])

/-- `Node.find`: the standard walk, returning the leaf when keys match. -/
def find : PNode → Bytes → Option PNode
  | .leaf k v ver h d, key =>
      if bufCompare key k = .eq then some (.leaf k v ver h d) else none
  | .branch k _ _ _ _ _ l r _ _, key =>
      if bufCompare key k = .lt then find l key else find r key

/-- `Node.findPath`: pushes the landing node first, then each branch on the way
back up (accumulator threaded as in the source's mutable array). -/
def findPath : PNode → Bytes → List PNode → List PNode
  | .leaf k v ver h d, _, path => path ++ [.leaf k v ver h d]
  | .branch k ver lh rh lH rH l r h d, key, path =>
      (if bufCompare key k = .lt then findPath l key path else findPath r key path)
        ++ [.branch k ver lh rh lH rH l r h d]

/-- `Node.persist`: recursively persists materialized children, refreshes the
recorded child hashes, and when dirty emits an orphan for the previous identity,
stamps the version, recomputes the hash and writes the node.  Returns the
updated node together with the `putOrphan` and `putNode` events in order.
Recursive calls use the store's current version (the default argument in the
source), which is the `version` threaded here. -/
def persist (version : Nat) : PNode → PNode × List OrphanEvt × List PNode
  | .leaf k v ver h d =>
      if d then
        let n1 : PNode := .leaf k v (some version) (some (.hLeaf version k v)) false
        (n1, (match h with | some hh => [(some hh, ver)] | none => []), [n1])
      else (.leaf k v ver h d, [], [])
  | .branch k ver lh rh _ _ l r h d =>
      let pl := persist version l
      let pr := persist version r
      let lH1 := pl.1.hashOpt
      let rH1 := pr.1.hashOpt
      if d then
        let newHash := Hash.hBranch version (Hash.fromOpt lH1) (Hash.fromOpt rH1)
        let n1 : PNode := .branch k (some version) lh rh lH1 rH1 pl.1 pr.1 (some newHash) false
        (n1,
          pl.2.1 ++ pr.2.1 ++ (match h with | some hh => [(some hh, ver)] | none => []),
          pl.2.2 ++ pr.2.2 ++ [n1])
      else
        (.branch k ver lh rh lH1 rH1 pl.1 pr.1 h d, pl.2.1 ++ pr.2.1, pl.2.2 ++ pr.2.2)

/-- In-order list of leaf key/value pairs. -/
def toList : PNode → List (Bytes × Bytes)
  | .leaf k v _ _ _ => [(k, v)]
  | .branch _ _ _ _ _ _ l r _ _ => toList l ++ toList r

/-- In-order list of leaf keys. -/
def keys (n : PNode) : List Bytes := (toList n).map Prod.fst

/-- Whether the node is a `Branch` (the `instanceof Branch` test). -/
def isBranchB : PNode → Bool
  | .branch .. => true
  | .leaf .. => false

end PNode

open PNode

/-- BST ordering invariant: inside every branch, left keys are strictly below
the branch key and right keys are not. -/
def OrderedN : PNode → Prop
  | .leaf .. => True
  | .branch k _ _ _ _ _ l r _ _ =>
      OrderedN l ∧ OrderedN r ∧ (∀ x ∈ keys l, kLt x k) ∧ (∀ x ∈ keys r, ¬ kLt x k)

instance decOrderedN : (n : PNode) → Decidable (OrderedN n)
  | .leaf k v a b c => .isTrue (by simp [OrderedN])
  | .branch k ver lh rh lH rH l r h d =>
      have hl : Decidable (OrderedN l) := decOrderedN l
      have hr : Decidable (OrderedN r) := decOrderedN r
      decidable_of_iff
        (OrderedN l ∧ OrderedN r ∧ (∀ x ∈ keys l, kLt x k) ∧ (∀ x ∈ keys r, ¬ kLt x k))
        (by simp [OrderedN])

/-- Stored subtree heights agree with the recursively computed heights. -/
def HeightsOk : PNode → Prop
  | .leaf .. => True
  | .branch _ _ lh rh _ _ l r _ _ =>
      lh = l.height ∧ rh = r.height ∧ HeightsOk l ∧ HeightsOk r

instance decHeightsOk : (n : PNode) → Decidable (HeightsOk n)
  | .leaf k v a b c => .isTrue (by simp [HeightsOk])
  | .branch k ver lh rh lH rH l r h d =>
      have hl : Decidable (HeightsOk l) := decHeightsOk l
      have hr : Decidable (HeightsOk r) := decHeightsOk r
      decidable_of_iff
        (lh = l.height ∧ rh = r.height ∧ HeightsOk l ∧ HeightsOk r)
        (by simp [HeightsOk])

/-- AVL balance invariant: every branch has `|leftHeight - rightHeight| ≤ 1`. -/
def BalAll : PNode → Prop
  | .leaf .. => True
  | .branch _ _ lh rh _ _ l r _ _ =>
      (lh ≤ rh + 1 ∧ rh ≤ lh + 1) ∧ BalAll l ∧ BalAll r

instance decBalAll : (n : PNode) → Decidable (BalAll n)
  | .leaf k v a b c => .isTrue (by simp [BalAll])
  | .branch k ver lh rh lH rH l r h d =>
      have hl : Decidable (BalAll l) := decBalAll l
      have hr : Decidable (BalAll r) := decBalAll r
      decidable_of_iff ((lh ≤ rh + 1 ∧ rh ≤ lh + 1) ∧ BalAll l ∧ BalAll r)
        (by simp [BalAll])

/-- Split-key invariant: every branch key equals the key of the leftmost leaf
of its right subtree. -/
def SplitKeyAll : PNode → Prop
  | .leaf .. => True
  | .branch k _ _ _ _ _ l r _ _ =>
      k = pkey (leftmost r) ∧ SplitKeyAll l ∧ SplitKeyAll r

instance decSplitKeyAll : (n : PNode) → Decidable (SplitKeyAll n)
  | .leaf k v a b c => .isTrue (by simp [SplitKeyAll])
  | .branch k ver lh rh lH rH l r h d =>
      have hl : Decidable (SplitKeyAll l) := decSplitKeyAll l
      have hr : Decidable (SplitKeyAll r) := decSplitKeyAll r
      decidable_of_iff (k = pkey (leftmost r) ∧ SplitKeyAll l ∧ SplitKeyAll r)
        (by simp [SplitKeyAll])

/-- Clean in-memory tree: nothing dirty and every recorded child hash matches
the materialized child (which is what lazy materialization guarantees). -/
def Clean : PNode → Prop
  | .leaf _ _ _ _ d => d = false
  | .branch _ _ _ _ lH rH l r _ d =>
      d = false ∧ lH = l.hashOpt ∧ rH = r.hashOpt ∧ Clean l ∧ Clean r

instance decClean : (n : PNode) → Decidable (Clean n)
  | .leaf k v a b c => decidable_of_iff (c = false) (by simp [Clean])
  | .branch k ver lh rh lH rH l r h d =>
      have hl : Decidable (Clean l) := decClean l
      have hr : Decidable (Clean r) := decClean r
      decidable_of_iff
        (d = false ∧ lH = l.hashOpt ∧ rH = r.hashOpt ∧ Clean l ∧ Clean r)
        (by simp [Clean])

/-- Fully persisted tree: every hash field is the Merkle hash mandated by the
scheme (spec invariant "Hash correctness") and the recorded child hashes agree
with the children. -/
def Hashed : PNode → Prop
  | .leaf k v ver h _ => ver ≠ none ∧ h = ver.map fun vn => Hash.hLeaf vn k v
  | .branch _ ver _ _ lH rH l r h _ =>
      Hashed l ∧ Hashed r ∧ ver ≠ none ∧ lH ≠ none ∧ rH ≠ none ∧
      lH = l.hashOpt ∧ rH = r.hashOpt ∧
      h = ver.map fun vn => Hash.hBranch vn (Hash.fromOpt lH) (Hash.fromOpt rH)

instance decHashed : (n : PNode) → Decidable (Hashed n)
  | .leaf k v ver h d =>
      decidable_of_iff (ver ≠ none ∧ h = ver.map fun vn => Hash.hLeaf vn k v)
        (by simp [Hashed])
  | .branch k ver lh rh lH rH l r h d =>
      have hl : Decidable (Hashed l) := decHashed l
      have hr : Decidable (Hashed r) := decHashed r
      decidable_of_iff
        (Hashed l ∧ Hashed r ∧ ver ≠ none ∧ lH ≠ none ∧ rH ≠ none ∧
          lH = l.hashOpt ∧ rH = r.hashOpt ∧
          h = ver.map fun vn => Hash.hBranch vn (Hash.fromOpt lH) (Hash.fromOpt rH))
        (by simp [Hashed])

/-! ## Merkle proofs (`src/proof.ts`, `Tree.getProof` / `Tree.verifyProof`) -/

/-- Leaf triple `[u32be(leaf.version!), key, leaf.value]`; the 4-byte version
buffer is carried as the number it encodes. -/
abbrev ProofLeaf := Nat × Bytes × Bytes

/-- Branch triple `[u32be(branch.version!), leftHash?, rightHash?]`. -/
abbrev ProofBranch := Nat × Option Hash × Option Hash

/-- The `Proof` type of `src/proof.ts`. -/
abbrev TreeProof := ProofLeaf × List ProofBranch

/-- One entry of the branch list built by `Tree.getProof`: the sibling hash of
the taken direction is emitted, the other slot stays absent.  The `getD 0`
models the non-null assertion on `branch.version!`. -/
def branchEntry (key : Bytes) (b : PNode) : ProofBranch :=
  match b with
  | .branch bk bver _ _ blH brH _ _ _ _ =>
      if bufCompare key bk = .lt then (bver.getD 0, none, brH)
      else (bver.getD 0, blH, none)
  | _ => (0, none, none)

/-- `Tree.getProof`: `findPath`, pop the landing node (it must exist and be a
Leaf, else the `Key does not exist.` error is thrown — modelled as `none`),
then map the remaining path to branch triples.  The leaf triple carries the
query key, exactly as the source does. -/
def getProof (root : Option PNode) (key : Bytes) : Option TreeProof :=
  match root with
  | none => none
  | some n =>
      match findPath n key [] with
      | [] => none
      | lf :: rest =>
          match lf with
          | .leaf _ v ver _ _ => some ((ver.getD 0, key, v), rest.map (branchEntry key))
          | _ => none

/-- Verification errors; each constructor corresponds to one thrown message of
`Tree.verifyProof` (key mismatch, value mismatch, empty sibling pair, final
root-hash mismatch). -/
inductive VerifyErr
  | keyMismatch
  | valueMismatch
  | invalidProof
  | rootMismatch
deriving DecidableEq

/-- The hash-folding loop of `Tree.verifyProof`: fails on an entry with both
siblings absent, otherwise hashes the left sibling before or the right sibling
after the running hash. -/
def chain (h : Hash) : List ProofBranch → Option Hash
  | [] => some h
  | (v, lopt, ropt) :: rest =>
      match lopt, ropt with
      | none, none => none
      | some lh, _ => chain (.hBranch v lh h) rest
      | none, some rh => chain (.hBranch v h rh) rest

/-- `Tree.verifyProof` against a root hash (the tree's `rootHash` field; an
absent root hash always fails the final comparison, as `undefined !== 0`). -/
def verifyProof (rootHash : Option Hash) (proof : TreeProof) (key value : Bytes) :
    Except VerifyErr Unit :=
  if bufCompare proof.1.2.1 key ≠ .eq then .error .keyMismatch
  else if bufCompare proof.1.2.2 value ≠ .eq then .error .valueMismatch
  else
    match chain (.hLeaf proof.1.1 proof.1.2.1 proof.1.2.2) proof.2 with
    | none => .error .invalidProof
    | some hFinal => if rootHash = some hFinal then .ok () else .error .rootMismatch

/-- The tree's cached `rootHash` for a materialized root. -/
def rootHashOf (root : Option PNode) : Option Hash := root.bind hashOpt

/-- Success of the composite call
`tree.verifyProof(tree.getProof(key), key, value)`. -/
def getAndVerifyOk (root : Option PNode) (key value : Bytes) : Prop :=
  ∃ p, getProof root key = some p ∧ verifyProof (rootHashOf root) p key value = .ok ()

/-- `Tree.get` (values are already-packed bytes, the codec is the identity). -/
def getVal (root : Option PNode) (key : Bytes) : Option Bytes :=
  match root with
  | some n => (find n key).map pval
  | none => none

/-- `Tree.has`. -/
def hasVal (root : Option PNode) (key : Bytes) : Bool :=
  match root with
  | some n => (find n key).isSome
  | none => false

/-- Proof helper (not from the source): the leaf `findPath`/`find` land on. -/
def landing : PNode → Bytes → PNode
  | .leaf k v ver h d, _ => .leaf k v ver h d
  | .branch k _ _ _ _ _ l r _ _, key =>
      if bufCompare key k = .lt then landing l key else landing r key

/-- Proof helper (not from the source): the root hash recomputed along the
search path for `key` when the landing leaf's hash slot is replaced by `h0`. -/
def rebuild (n : PNode) (key : Bytes) (h0 : Hash) : Hash :=
  match n with
  | .leaf .. => h0
  | .branch k ver _ _ _ _ l r _ _ =>
      if bufCompare key k = .lt then
        .hBranch (ver.getD 0) (rebuild l key h0) (Hash.fromOpt r.hashOpt)
      else
        .hBranch (ver.getD 0) (Hash.fromOpt l.hashOpt) (rebuild r key h0)

/-! ## Neighbor search (`src/ics23.ts`) -/

/-- `findLeftNeighbor` on a node: a non-branch yields `undefined`; on a branch,
keys greater than the split key recurse right with the branch as fallback,
others recurse left with no fallback. -/
def findLeftNeighborN (key : Bytes) : PNode → Option PNode
  | .leaf .. => none
  | .branch bk ver lh rh lH rH l r h d =>
      if bufCompare key bk = .gt then
        match findLeftNeighborN key r with
        | some m => some m
        | none => some (.branch bk ver lh rh lH rH l r h d)
      else findLeftNeighborN key l

/-- `findRightNeighbor`, symmetric on the left side. -/
def findRightNeighborN (key : Bytes) : PNode → Option PNode
  | .leaf .. => none
  | .branch bk ver lh rh lH rH l r h d =>
      if bufCompare key bk = .lt then
        match findRightNeighborN key l with
        | some m => some m
        | none => some (.branch bk ver lh rh lH rH l r h d)
      else findRightNeighborN key r

/-! ## Operation sequences on the tree facade (`Tree.insert` / `Tree.remove`) -/

/-- A mutation of the tree facade (values already packed and non-falsy). -/
inductive Op
  | ins (key value : Bytes)
  | del (key : Bytes)
deriving DecidableEq

/-- One facade mutation on `(materialized root, store version)`: the enclosing
`store.transaction` increments the version (top-level call), the root is
updated (`root.insert` / fresh leaf, or `root.remove`) and persisted. -/
def treeApply : Option PNode × Nat → Op → Option PNode × Nat
  | (root, ver), .ins k v =>
      let ver1 := ver + 1
      let r1 := match root with
        | some r => insert r k v
        | none => PNode.leaf k v none none true
      (some (persist ver1 r1).1, ver1)
  | (root, ver), .del k =>
      let ver1 := ver + 1
      match root with
      | some r =>
          match (remove r k).1 with
          | some r1 => (some (persist ver1 r1).1, ver1)
          | none => (none, ver1)
      | none => (none, ver1)

/-- The materialized root after a sequence of facade mutations on an initially
empty tree. -/
def applyOps (ops : List Op) : Option PNode :=
  (ops.foldl treeApply (none, 0)).1

/-- Reference map semantics of one operation for a fixed query key. -/
def specUpd (key : Bytes) (acc : Option Bytes) : Op → Option Bytes
  | .ins k v => if k = key then some v else acc
  | .del k => if k = key then none else acc

/-- The value of `key` dictated by the spec: that of the most recent insert for
`key` not followed by a remove of `key`; absent otherwise. -/
def specGet (ops : List Op) (key : Bytes) : Option Bytes :=
  ops.foldl (fun acc op => specUpd key acc op) none

/-- Association-list lookup used to relate the tree to its in-order list. -/
def lookupKV (key : Bytes) : List (Bytes × Bytes) → Option Bytes
  | [] => none
  | p :: t => if p.1 = key then some p.2 else lookupKV key t

/-- Sorted-insert-or-replace on an association list. -/
def insKV (key value : Bytes) : List (Bytes × Bytes) → List (Bytes × Bytes)
  | [] => [(key, value)]
  | p :: t =>
      if kLt key p.1 then (key, value) :: p :: t
      else if key = p.1 then (key, value) :: t
      else p :: insKV key value t

/-- Erase the first binding of a key from an association list. -/
def eraseKV (key : Bytes) : List (Bytes × Bytes) → List (Bytes × Bytes)
  | [] => []
  | p :: t => if p.1 = key then t else p :: eraseKV key t

/-- The bundle of structural invariants maintained by the tree operations. -/
def InvN (n : PNode) : Prop := OrderedN n ∧ HeightsOk n ∧ BalAll n ∧ SplitKeyAll n

/-- `InvN` lifted to a possibly empty tree. -/
def InvO : Option PNode → Prop
  | none => True
  | some n => InvN n

/-- The AVL balance invariant lifted to a possibly empty tree. -/
def BalAllO : Option PNode → Prop
  | none => True
  | some n => BalAll n ∧ HeightsOk n

/-- The split-key invariant lifted to a possibly empty tree. -/
def SplitKeyAllO : Option PNode → Prop
  | none => True
  | some n => SplitKeyAll n

/-! ## The store (`src/store.ts`) -/

/-- An orphans-table key `u32be(toVersion) ++ u32be(fromVersion) ++ hash`,
carried as the triple it encodes (the big-endian 4-byte encodings are
order-preserving and injective below 2^32). -/
abbrev OrphanKey := Nat × Nat × Hash

/-- The store: version counter, transaction stack depth, and the three lmdb
tables (versions, nodes keyed by hash, orphans). -/
structure StoreSt where
  version : Nat
  txDepth : Nat
  versions : List (Nat × Option Hash)
  nodes : List Hash
  orphans : List OrphanKey
deriving DecidableEq

/-- lmdb `putSync` on the versions table: upsert by key. -/
def putKV (m : List (Nat × Option Hash)) (k : Nat) (v : Option Hash) :
    List (Nat × Option Hash) :=
  if m.any (fun p => p.1 == k) then
    m.map (fun p => if p.1 = k then (k, v) else p)
  else m ++ [(k, v)]

/-- lmdb `putSync` on the orphans table (value is the constant `true`, so the
table is a key set). -/
def orphanPut (os : List OrphanKey) (o : OrphanKey) : List OrphanKey :=
  if o ∈ os then os else os ++ [o]

/-- `Store.putOrphan(hash, fromVersion, toVersion?)`: the default
`toVersion || this.version - 1` treats both an omitted and a zero argument as
falsy; a node replaced in its creation version is deleted from the nodes table
instead of becoming an orphan. -/
def putOrphan (s : StoreSt) (hash : Hash) (fromVersion : Nat) (toVersionQ : Option Nat) :
    StoreSt :=
  let toVersion := match toVersionQ with
    | none => s.version - 1
    | some 0 => s.version - 1
    | some t => t
  if toVersion < fromVersion then
    { s with nodes := s.nodes.filter (fun x => decide (x ≠ hash)) }
  else
    { s with orphans := orphanPut s.orphans (toVersion, fromVersion, hash) }

/-- The reverse scan `versionDB.getKeys({start: bound, limit: 1, reverse})`:
the largest version key `≤ bound`, or 0 when there is none. -/
def maxKeyLE (vs : List (Nat × Option Hash)) (bound : Nat) : Nat :=
  vs.foldl (fun acc p => if p.1 ≤ bound then max acc p.1 else acc) 0

/-- `Store.prune(toVersion, fromVersion)` (source argument order).  The lmdb
byte range over 40-byte orphan keys from the 4-byte prefix
`u32be(fromVersion - 1)` through `u32be(toVersion + 1)` exclusive selects
exactly the orphans whose `toVersion` component lies in
`[fromVersion - 1, toVersion]`: every 40-byte key extending the 4-byte start
prefix is strictly greater than it, so the `fromVersion - 1` prefix group is
included.  Rewritten orphans always land at or before the cursor position, so
iterating over the pre-scanned list is faithful.  `pruneStep` is the loop body:
remove the orphan record, then either drop the node (born after the last
surviving earlier version) or rewrite the orphan against `previousVersion`. -/
def pruneStep (previousVersion : Nat) (st : StoreSt) (o : OrphanKey) : StoreSt :=
  let st1 := { st with orphans := st.orphans.filter (fun x => decide (x ≠ o)) }
  if previousVersion < o.2.1 then
    { st1 with nodes := st1.nodes.filter (fun x => decide (x ≠ o.2.2)) }
  else putOrphan st1 o.2.2 o.2.1 (some previousVersion)

/-- `Store.prune` assembled from `pruneStep`. -/
def prune (s : StoreSt) (toVersion fromVersion : Nat) : StoreSt :=
  let previousVersion := maxKeyLE s.versions (fromVersion - 1)
  let scanned := s.orphans.filter fun o =>
    decide (fromVersion - 1 ≤ o.1 ∧ o.1 ≤ toVersion)
  let s1 := scanned.foldl (pruneStep previousVersion) s
  { s1 with versions := s1.versions.filter fun p =>
      decide (¬ (fromVersion ≤ p.1 ∧ p.1 ≤ toVersion)) }

/-- `Store.putVersion` (an absent root hash is stored as an empty buffer,
modelled as `none`). -/
def putVersion (s : StoreSt) (version : Nat) (rootHash : Option Hash) : StoreSt :=
  { s with versions := putKV s.versions version rootHash }

/-! ## Transactions (`Store.transaction` and friends) -/

/-- The transaction-related entry points: a plain `transaction(action)` call
(as issued by `Tree.insert`/`Tree.remove`), `startTransaction`,
`commitTransaction` and `revertTransaction`. -/
inductive TxOp
  | txn
  | start
  | commit
  | revert
deriving DecidableEq

/-- Effect of each entry point on the version counter and the transaction
stack; `none` models the thrown mis-pairing errors.  `transaction` increments
the version only when the stack is empty; `startTransaction` additionally
pushes; `commitTransaction` pops; `revertTransaction` pops and decrements the
version when it popped the outermost frame. -/
def txStep (s : StoreSt) : TxOp → Option StoreSt
  | .txn =>
      some { s with version := if s.txDepth = 0 then s.version + 1 else s.version }
  | .start =>
      some { s with version := if s.txDepth = 0 then s.version + 1 else s.version,
                    txDepth := s.txDepth + 1 }
  | .commit =>
      if s.txDepth = 0 then none else some { s with txDepth := s.txDepth - 1 }
  | .revert =>
      if s.txDepth = 0 then none
      else some { s with txDepth := s.txDepth - 1,
                         version := if s.txDepth = 1 then s.version - 1 else s.version }

/-- Runs a list of transaction entry points, failing as soon as one throws. -/
def runTx (s : StoreSt) : List TxOp → Option StoreSt
  | [] => some s
  | op :: rest =>
      match txStep s op with
      | none => none
      | some s1 => runTx s1 rest

/-- Whether a list of entry points keeps the transaction stack nonempty after
every step (i.e. never closes the outermost transaction). -/
def innerOk (s : StoreSt) : List TxOp → Bool
  | [] => true
  | op :: rest =>
      match txStep s op with
      | none => false
      | some s1 => decide (1 ≤ s1.txDepth) && innerOk s1 rest

/-! ## The tree facade state (`src/tree.ts`) -/

/-- A tree facade over a store, with the root materialized. -/
structure TreeSt where
  store : StoreSt
  root : Option PNode
  rootHash : Option Hash
deriving DecidableEq

/-- `Tree.remove`: inside `store.transaction` (a top-level call increments the
version), remove from the materialized root, persist the result, record the new
version's root hash, update the cached root hash.  Orphan and node writes are
returned as event lists. -/
def treeRemove (t : TreeSt) (key : Bytes) : TreeSt × List OrphanEvt × List PNode :=
  let v := if t.store.txDepth = 0 then t.store.version + 1 else t.store.version
  let s1 := { t.store with version := v }
  match t.root with
  | none =>
      ({ store := putVersion s1 v none, root := none, rootHash := none }, [], [])
  | some r =>
      match remove r key with
      | (none, os) =>
          ({ store := putVersion s1 v none, root := none, rootHash := none }, os, [])
      | (some r1, os) =>
          let p := persist v r1
          ({ store := putVersion s1 v p.1.hashOpt, root := some p.1,
             rootHash := p.1.hashOpt }, os ++ p.2.1, p.2.2)

/-! ## Node materialization (`fromCompact`) -/

/-- Compact on-disk node forms, discriminated by tuple arity in the source
(3 for a leaf, 6 for a branch). -/
inductive CompactNode
  | leafC (key value : Bytes) (version : Nat)
  | branchC (key : Bytes) (version : Nat) (leftHeight rightHeight : Nat)
      (leftHash rightHash : Option Hash)
deriving DecidableEq

/-- The constructor-field state of a freshly materialized node: children are
still lazy (hash references only), exactly as `fromCompact` leaves them. -/
inductive NodeData
  | leafD (key value : Bytes) (version : Option Nat) (hash : Option Hash) (isDirty : Bool)
  | branchD (key : Bytes) (version : Option Nat) (leftHeight rightHeight : Nat)
      (leftHash rightHash : Option Hash) (hash : Option Hash) (isDirty : Bool)
deriving DecidableEq

/-- The `isDirty` flag of a materialized node. -/
def NodeData.dirtyD : NodeData → Bool
  | .leafD _ _ _ _ d => d
  | .branchD _ _ _ _ _ _ _ d => d

/-- `fromCompact(store, compact, hash)`: absent input passes through; otherwise
the matching constructor runs, which sets `isDirty = !hash`. -/
def fromCompact (compact : Option CompactNode) (hash : Option Hash) : Option NodeData :=
  match compact with
  | none => none
  | some (.leafC k v ver) => some (.leafD k v (some ver) hash hash.isNone)
  | some (.branchC k ver lh rh lHash rHash) =>
      some (.branchD k (some ver) lh rh lHash rHash hash hash.isNone)

/-- Proof helper (not from the source): the branch nodes collected by
`findPath` in child-to-root order (everything after the landing leaf). -/
def pathBranches : PNode → Bytes → List PNode
  | .leaf .., _ => []
  | .branch k ver lh rh lH rH l r h d, key =>
      (if bufCompare key k = .lt then pathBranches l key else pathBranches r key)
        ++ [.branch k ver lh rh lH rH l r h d]

/-- `Hashed` lifted to a possibly empty tree. -/
def HashedO : Option PNode → Prop
  | none => True
  | some n => Hashed n

/-- Proof helper (not from the source): the in-memory well-formedness that the
mutating operations maintain between persists.  A node still flagged clean must
carry its correct Merkle data, have clean children, and its recorded child
hashes are either accurate or deleted by a setter; dirty nodes are
unconstrained (persist recomputes them). -/
def HashedW : PNode → Prop
  | .leaf k v ver h d =>
      d = false → (ver ≠ none ∧ h = ver.map fun vn => Hash.hLeaf vn k v)
  | .branch _ ver _ _ lH rH l r h d =>
      HashedW l ∧ HashedW r ∧
      (d = false →
        l.dirty = false ∧ r.dirty = false ∧ ver ≠ none ∧
        (lH = l.hashOpt ∨ lH = none) ∧ (rH = r.hashOpt ∨ rH = none) ∧
        h = ver.map fun vn =>
          Hash.hBranch vn (Hash.fromOpt l.hashOpt) (Hash.fromOpt r.hashOpt))

/-- The state of every persisted root: fully hashed and fully clean. -/
def HCO : Option PNode → Prop
  | none => True
  | some n => Hashed n ∧ Clean n

/-! ## Concrete fixtures used by witnesses and counterexamples -/

/-- Hash fixture. -/
def hashW : Hash := .hLeaf 1 [1] [2]

/-- Hash fixture. -/
def hashW2 : Hash := .hLeaf 1 [5] [6]

/-- A single clean persisted leaf with key `[1]`. -/
def leafW : PNode := .leaf [1] [2] (some 1) (some hashW) false

/-- A fully persisted two-leaf tree with keys `[1]` and `[5]`. -/
def branchW : PNode :=
  .branch [5] (some 1) 1 1 (some hashW) (some hashW2)
    (.leaf [1] [2] (some 1) (some hashW) false)
    (.leaf [5] [6] (some 1) (some hashW2) false)
    (some (.hBranch 1 hashW hashW2)) false

/-- Store fixture for the prune counterexample: the only retained version is
10, and one orphan record has `toVersion = 4`. -/
def storeW : StoreSt :=
  { version := 10, txDepth := 0, versions := [(10, some hashW)],
    nodes := [hashW2], orphans := [(4, 3, hashW2)] }

/-- Tree-facade fixture over the single clean leaf. -/
def treeW : TreeSt :=
  { store := { version := 3, txDepth := 0, versions := [(3, some hashW)],
               nodes := [], orphans := [] },
    root := some leafW, rootHash := some hashW }

/-! ## Byte-order lemmas -/

theorem bufCompare_eq_iff : ∀ a b : Bytes, bufCompare a b = .eq ↔ a = b := by
  intro a
  induction a with
  | nil => intro b; cases b <;> simp [bufCompare]
  | cons x xs ih =>
      intro b
      cases b with
      | nil => simp [bufCompare]
      | cons y ys =>
          rcases Nat.lt_trichotomy x y with h1 | h1 | h1
          · have hxy : x ≠ y := Nat.ne_of_lt h1
            simp [bufCompare, h1, hxy]
          · subst h1
            simp [bufCompare, ih]
          · have hxy : x ≠ y := (Nat.ne_of_lt h1).symm
            simp [bufCompare, Nat.lt_asymm h1, h1, hxy]

theorem bufCompare_self (a : Bytes) : bufCompare a a = .eq :=
  (bufCompare_eq_iff a a).2 rfl

theorem bufCompare_swap : ∀ a b : Bytes, (bufCompare a b).swap = bufCompare b a := by
  intro a
  induction a with
  | nil => intro b; cases b <;> simp [bufCompare, Ordering.swap]
  | cons x xs ih =>
      intro b
      cases b with
      | nil => simp [bufCompare, Ordering.swap]
      | cons y ys =>
          rcases Nat.lt_trichotomy x y with h1 | h1 | h1
          · simp [bufCompare, h1, Nat.lt_asymm h1, Ordering.swap]
          · subst h1
            simp [bufCompare, ih]
          · simp [bufCompare, h1, Nat.lt_asymm h1, Ordering.swap]

theorem kLt_trans : ∀ a b c : Bytes, kLt a b → kLt b c → kLt a c := by
  unfold kLt
  intro a
  induction a with
  | nil =>
      intro b c h1 h2
      cases b with
      | nil => simp [bufCompare] at h1
      | cons y ys =>
          cases c with
          | nil => simp [bufCompare] at h2
          | cons z zs => simp [bufCompare]
  | cons x xs ih =>
      intro b c h1 h2
      cases b with
      | nil => simp [bufCompare] at h1
      | cons y ys =>
          cases c with
          | nil => simp [bufCompare] at h2
          | cons z zs =>
              simp only [bufCompare] at h1 h2 ⊢
              by_cases hxy : x < y
              · by_cases hyz : y < z
                · have : x < z := Nat.lt_trans hxy hyz
                  simp [this]
                · by_cases hzy : z < y
                  · simp [hyz, hzy] at h2
                  · have : y = z := Nat.le_antisymm (Nat.le_of_not_lt hzy) (Nat.le_of_not_lt hyz)
                    subst this
                    simp [hxy]
              · by_cases hyx : y < x
                · simp [hxy, hyx] at h1
                · have hxe : x = y := Nat.le_antisymm (Nat.le_of_not_lt hyx) (Nat.le_of_not_lt hxy)
                  subst hxe
                  by_cases hyz : x < z
                  · simp [hyz]
                  · by_cases hzy : z < x
                    · simp [hyz, hzy] at h2
                    · have : x = z := Nat.le_antisymm (Nat.le_of_not_lt hzy) (Nat.le_of_not_lt hyz)
                      subst this
                      simp [hxy] at h1 h2 ⊢
                      exact ih ys zs h1 h2

theorem kLt_irrefl (a : Bytes) : ¬ kLt a a := by
  unfold kLt
  rw [bufCompare_self]
  simp

theorem kLt_asymm {a b : Bytes} (h : kLt a b) : ¬ kLt b a := by
  intro h2
  exact kLt_irrefl a (kLt_trans a b a h h2)

theorem kLt_ne {a b : Bytes} (h : kLt a b) : a ≠ b := by
  intro he
  subst he
  exact kLt_irrefl a h

theorem bufCompare_gt_iff {a b : Bytes} : bufCompare a b = .gt ↔ kLt b a := by
  unfold kLt
  rw [← bufCompare_swap a b]
  cases bufCompare a b <;> simp [Ordering.swap]

theorem kLt_of_not_of_ne {a b : Bytes} (h1 : ¬ kLt a b) (h2 : a ≠ b) : kLt b a := by
  rcases hc : bufCompare a b with h3 | h3 | h3
  · exact absurd hc h1
  · exact absurd ((bufCompare_eq_iff a b).1 hc) h2
  · exact bufCompare_gt_iff.1 hc

theorem not_kLt_iff {a b : Bytes} : ¬ kLt a b ↔ (a = b ∨ kLt b a) := by
  constructor
  · intro h
    by_cases he : a = b
    · exact Or.inl he
    · exact Or.inr (kLt_of_not_of_ne h he)
  · rintro (rfl | h)
    · exact kLt_irrefl a
    · exact kLt_asymm h

/-! ## Basic node lemmas -/

theorem height_leaf (k v : Bytes) (ver : Option Nat) (h : Option Hash) (d : Bool) :
    (PNode.leaf k v ver h d).height = 1 := rfl

theorem height_branch (k : Bytes) (ver : Option Nat) (lh rh : Nat) (lH rH : Option Hash)
    (l r : PNode) (h : Option Hash) (d : Bool) :
    (PNode.branch k ver lh rh lH rH l r h d).height = 1 + max lh rh := rfl

theorem height_pos (n : PNode) : 1 ≤ n.height := by
  cases n <;> simp [height]

theorem toList_ne_nil (n : PNode) : n.toList ≠ [] := by
  induction n with
  | leaf k v ver h d => simp [toList]
  | branch k ver lh rh lH rH l r h d ihl ihr => simp [toList, ihl]

theorem keys_ne_nil (n : PNode) : keys n ≠ [] := by
  unfold keys
  simp [toList_ne_nil]

theorem leftmost_toList : ∀ n : PNode, ∃ v t, n.toList = (pkey n.leftmost, v) :: t := by
  intro n
  induction n with
  | leaf k v ver h d => exact ⟨v, [], rfl⟩
  | branch k ver lh rh lH rH l r h d ihl ihr =>
      obtain ⟨v, t, ht⟩ := ihl
      exact ⟨v, t ++ r.toList, by simp [toList, leftmost, ht]⟩

theorem leftmost_mem_keys (n : PNode) : pkey n.leftmost ∈ keys n := by
  obtain ⟨v, t, ht⟩ := leftmost_toList n
  simp [keys, ht]

theorem leftmost_min (n : PNode) (ho : OrderedN n) :
    ∀ x ∈ keys n, ¬ kLt x (pkey n.leftmost) := by
  induction n with
  | leaf k v ver h d =>
      intro x hx
      simp [keys, toList] at hx
      subst hx
      exact kLt_irrefl _
  | branch k ver lh rh lH rH l r h d ihl ihr =>
      obtain ⟨hol, hor, hbl, hbr⟩ := ho
      intro x hx
      have hx2 : x ∈ keys l ∨ x ∈ keys r := by
        simpa [keys, toList] using hx
      simp only [leftmost]
      rcases hx2 with hx2 | hx2
      · exact ihl hol x hx2
      · intro hcon
        have h1 : kLt (pkey l.leftmost) k := hbl _ (leftmost_mem_keys l)
        have h2 : ¬ kLt x k := hbr x hx2
        exact h2 (kLt_trans _ _ _ hcon h1)

theorem keys_branch (k : Bytes) (ver : Option Nat) (lh rh : Nat)
    (lH rH : Option Hash) (l r : PNode) (h : Option Hash) (d : Bool) :
    keys (.branch k ver lh rh lH rH l r h d) = keys l ++ keys r := by
  simp [keys, toList]

/-! ## Rotation lemmas -/

theorem leftRotation_toList (n : PNode) : (leftRotation n).toList = n.toList := by
  cases n with
  | leaf k v ver h d => rfl
  | branch k ver lh rh lH rH l r h d =>
      cases r with
      | leaf a b c e f => rfl
      | branch rk rver rlh rrh rlH rrH rl rr rh2 rd =>
          simp [leftRotation, setLeft, setRight, toList, List.append_assoc]

theorem rightRotation_toList (n : PNode) : (rightRotation n).toList = n.toList := by
  cases n with
  | leaf k v ver h d => rfl
  | branch k ver lh rh lH rH l r h d =>
      cases l with
      | leaf a b c e f => rfl
      | branch lk lver llh lrh llH lrH ll lr lh2 ld =>
          simp [rightRotation, setLeft, setRight, toList, List.append_assoc]

theorem leftRotation_keys (n : PNode) : keys (leftRotation n) = keys n := by
  simp [keys, leftRotation_toList]

theorem rightRotation_keys (n : PNode) : keys (rightRotation n) = keys n := by
  simp [keys, rightRotation_toList]

theorem leftRotation_ordered (n : PNode) (ho : OrderedN n) : OrderedN (leftRotation n) := by
  cases n with
  | leaf k v ver h d => exact ho
  | branch k ver lh rh lH rH l r h d =>
      cases r with
      | leaf a b c e f => exact ho
      | branch rk rver rlh rrh rlH rrH rl rr rh2 rd =>
          obtain ⟨hol, hor, hbl, hbr⟩ := ho
          obtain ⟨horl, horr, hbrl, hbrr⟩ := hor
          rw [keys_branch] at hbr
          have hy0 : pkey rl.leftmost ∈ keys rl := leftmost_mem_keys rl
          have hky0 : ¬ kLt (pkey rl.leftmost) k := hbr _ (by simp [hy0])
          simp only [leftRotation, setLeft, setRight, OrderedN, keys_branch]
          refine ⟨⟨hol, horl, hbl, fun x hx => hbr x (by simp [hx])⟩, horr, ?_, hbrr⟩
          intro x hx
          rcases List.mem_append.1 hx with hx | hx
          · have hxk : kLt x k := hbl x hx
            have hy0rk : kLt (pkey rl.leftmost) rk := hbrl _ hy0
            rcases not_kLt_iff.1 hky0 with he | hlt
            · rw [he] at hy0rk
              exact kLt_trans _ _ _ hxk hy0rk
            · exact kLt_trans _ _ _ (kLt_trans _ _ _ hxk hlt) hy0rk
          · exact hbrl x hx

theorem rightRotation_ordered (n : PNode) (ho : OrderedN n) : OrderedN (rightRotation n) := by
  cases n with
  | leaf k v ver h d => exact ho
  | branch k ver lh rh lH rH l r h d =>
      cases l with
      | leaf a b c e f => exact ho
      | branch lk lver llh lrh llH lrH ll lr lh2 ld =>
          obtain ⟨hol, hor, hbl, hbr⟩ := ho
          obtain ⟨holl, holr, hbll, hblr⟩ := hol
          rw [keys_branch] at hbl
          have hy0 : pkey lr.leftmost ∈ keys lr := leftmost_mem_keys lr
          have h1 : ¬ kLt (pkey lr.leftmost) lk := hblr _ hy0
          have h2 : kLt (pkey lr.leftmost) k := hbl _ (by simp [hy0])
          simp only [rightRotation, setLeft, setRight, OrderedN, keys_branch]
          refine ⟨holl, ⟨holr, hor, ?_, hbr⟩, hbll, ?_⟩
          · intro x hx
            exact hbl x (by simp [hx])
          · intro x hx
            rcases List.mem_append.1 hx with hx | hx
            · exact hblr x hx
            · intro hcon
              have hxk : kLt x k := by
                rcases not_kLt_iff.1 h1 with he | hlt
                · exact kLt_trans _ _ _ (he ▸ hcon) h2
                · exact kLt_trans _ _ _ (kLt_trans _ _ _ hcon hlt) h2
              exact hbr x hx hxk

theorem leftRotation_splitkey (n : PNode) (hs : SplitKeyAll n) :
    SplitKeyAll (leftRotation n) := by
  cases n with
  | leaf k v ver h d => exact hs
  | branch k ver lh rh lH rH l r h d =>
      cases r with
      | leaf a b c e f => exact hs
      | branch rk rver rlh rrh rlH rrH rl rr rh2 rd =>
          obtain ⟨hk, hsl, hsr⟩ := hs
          obtain ⟨hrk, hsrl, hsrr⟩ := hsr
          simp only [leftmost] at hk
          simp only [leftRotation, setLeft, setRight, SplitKeyAll, leftmost]
          exact ⟨hrk, ⟨hk, hsl, hsrl⟩, hsrr⟩

theorem rightRotation_splitkey (n : PNode) (hs : SplitKeyAll n) :
    SplitKeyAll (rightRotation n) := by
  cases n with
  | leaf k v ver h d => exact hs
  | branch k ver lh rh lH rH l r h d =>
      cases l with
      | leaf a b c e f => exact hs
      | branch lk lver llh lrh llH lrH ll lr lh2 ld =>
          obtain ⟨hk, hsl, hsr⟩ := hs
          obtain ⟨hlk, hsll, hslr⟩ := hsl
          simp only [rightRotation, setLeft, setRight, SplitKeyAll, leftmost]
          exact ⟨hlk, hsll, ⟨hk, hslr, hsr⟩⟩

theorem leftRotation_leftmost (n : PNode) : (leftRotation n).leftmost = n.leftmost := by
  cases n with
  | leaf k v ver h d => rfl
  | branch k ver lh rh lH rH l r h d =>
      cases r with
      | leaf a b c e f => rfl
      | branch rk rver rlh rrh rlH rrH rl rr rh2 rd =>
          simp [leftRotation, setLeft, setRight, leftmost]

theorem rightRotation_leftmost (n : PNode) : (rightRotation n).leftmost = n.leftmost := by
  cases n with
  | leaf k v ver h d => rfl
  | branch k ver lh rh lH rH l r h d =>
      cases l with
      | leaf a b c e f => rfl
      | branch lk lver llh lrh llH lrH ll lr lh2 ld =>
          simp [rightRotation, setLeft, setRight, leftmost]

/-! ## Balance lemmas -/

theorem balance_id (k : Bytes) (ver : Option Nat) (lh rh : Nat) (lH rH : Option Hash)
    (l r : PNode) (h : Option Hash) (d : Bool) (h1 : lh ≤ rh + 1) (h2 : rh ≤ lh + 1) :
    balance (.branch k ver lh rh lH rH l r h d) = .branch k ver lh rh lH rH l r h d := by
  simp only [balance]
  rw [if_neg (by omega), if_neg (by omega)]

theorem balance_toList (k : Bytes) (ver : Option Nat) (lh rh : Nat) (lH rH : Option Hash)
    (l r : PNode) (h : Option Hash) (d : Bool) :
    (balance (.branch k ver lh rh lH rH l r h d)).toList = l.toList ++ r.toList := by
  simp only [balance]
  split_ifs <;>
    simp [rightRotation_toList, leftRotation_toList, setLeft, setRight, toList]

theorem balance_keys (k : Bytes) (ver : Option Nat) (lh rh : Nat) (lH rH : Option Hash)
    (l r : PNode) (h : Option Hash) (d : Bool) :
    keys (balance (.branch k ver lh rh lH rH l r h d)) = keys l ++ keys r := by
  simp [keys, balance_toList]

theorem balance_ordered (k : Bytes) (ver : Option Nat) (lh rh : Nat) (lH rH : Option Hash)
    (l r : PNode) (h : Option Hash) (d : Bool)
    (hol : OrderedN l) (hor : OrderedN r)
    (hbl : ∀ x ∈ keys l, kLt x k) (hbr : ∀ x ∈ keys r, ¬ kLt x k) :
    OrderedN (balance (.branch k ver lh rh lH rH l r h d)) := by
  simp only [balance]
  split_ifs
  · apply rightRotation_ordered
    simp only [setLeft, OrderedN, leftRotation_keys]
    exact ⟨leftRotation_ordered l hol, hor, hbl, hbr⟩
  · apply rightRotation_ordered
    simp only [OrderedN]
    exact ⟨hol, hor, hbl, hbr⟩
  · apply leftRotation_ordered
    simp only [setRight, OrderedN, rightRotation_keys]
    exact ⟨hol, rightRotation_ordered r hor, hbl, hbr⟩
  · apply leftRotation_ordered
    simp only [OrderedN]
    exact ⟨hol, hor, hbl, hbr⟩
  · simp only [OrderedN]
    exact ⟨hol, hor, hbl, hbr⟩

theorem balance_splitkey (k : Bytes) (ver : Option Nat) (lh rh : Nat) (lH rH : Option Hash)
    (l r : PNode) (h : Option Hash) (d : Bool)
    (hk : k = pkey r.leftmost) (hsl : SplitKeyAll l) (hsr : SplitKeyAll r) :
    SplitKeyAll (balance (.branch k ver lh rh lH rH l r h d)) := by
  simp only [balance]
  split_ifs
  · apply rightRotation_splitkey
    simp only [setLeft, SplitKeyAll]
    exact ⟨hk, leftRotation_splitkey l hsl, hsr⟩
  · apply rightRotation_splitkey
    simp only [SplitKeyAll]
    exact ⟨hk, hsl, hsr⟩
  · apply leftRotation_splitkey
    simp only [setRight, SplitKeyAll, rightRotation_leftmost]
    exact ⟨hk, hsl, rightRotation_splitkey r hsr⟩
  · apply leftRotation_splitkey
    simp only [SplitKeyAll]
    exact ⟨hk, hsl, hsr⟩
  · simp only [SplitKeyAll]
    exact ⟨hk, hsl, hsr⟩

theorem balance_avl (k : Bytes) (ver : Option Nat) (lh rh : Nat) (lH rH : Option Hash)
    (l r : PNode) (h : Option Hash) (d : Bool)
    (hl : HeightsOk l) (hr : HeightsOk r) (bl : BalAll l) (br : BalAll r)
    (el : lh = l.height) (er : rh = r.height)
    (h1 : lh ≤ rh + 2) (h2 : rh ≤ lh + 2) :
    HeightsOk (balance (.branch k ver lh rh lH rH l r h d)) ∧
    BalAll (balance (.branch k ver lh rh lH rH l r h d)) ∧
    ((balance (.branch k ver lh rh lH rH l r h d)).height = 1 + max lh rh ∨
     ((balance (.branch k ver lh rh lH rH l r h d)).height + 1 = 1 + max lh rh ∧
      (lh = rh + 2 ∨ rh = lh + 2))) := by
  by_cases hc1 : (lh : Int) - (rh : Int) = 2
  · have hlh : lh = rh + 2 := by omega
    cases l with
    | leaf a b c e f =>
        exfalso
        rw [height_leaf] at el
        have := height_pos r
        omega
    | branch lk lver llh lrh llH lrH ll lr lhh ld =>
      simp only [HeightsOk] at hl
      obtain ⟨hll, hlr, hokll, hoklr⟩ := hl
      simp only [BalAll] at bl
      obtain ⟨⟨hb1, hb2⟩, hbll, hblr⟩ := bl
      rw [height_branch] at el
      have hposll : 1 ≤ llh := by rw [hll]; exact height_pos ll
      have hposlr : 1 ≤ lrh := by rw [hlr]; exact height_pos lr
      simp only [balance]
      rw [if_pos hc1]
      by_cases hc2 : balanceFactor (.branch lk lver llh lrh llH lrH ll lr lhh ld) < 0
      · rw [if_pos hc2]
        simp only [balanceFactor] at hc2
        have hlrh : lrh = rh + 1 := by omega
        have hllh : llh = rh := by omega
        cases lr with
        | leaf a2 b2 c2 e2 f2 =>
            exfalso
            rw [height_leaf] at hlr
            omega
        | branch mk mver mlh mrh mlH mrH ml mr mhh md =>
          simp only [HeightsOk] at hoklr
          obtain ⟨hml, hmr, hokml, hokmr⟩ := hoklr
          simp only [BalAll] at hblr
          obtain ⟨⟨hmb1, hmb2⟩, hbml, hbmr⟩ := hblr
          rw [height_branch] at hlr
          have hposml : 1 ≤ mlh := by rw [hml]; exact height_pos ml
          have hposmr : 1 ≤ mrh := by rw [hmr]; exact height_pos mr
          simp only [leftRotation, setLeft, setRight, rightRotation,
            height_leaf, height_branch, ← hll, ← hml, ← hmr, ← er]
          refine ⟨?_, ?_, ?_⟩
          · simp only [HeightsOk, height_leaf, height_branch, ← hll, ← hml, ← hmr, ← er]
            and_intros <;> first | assumption | omega | trivial
          · simp only [BalAll]
            and_intros <;> first | assumption | omega | trivial
          · omega
      · rw [if_neg hc2]
        simp only [balanceFactor] at hc2
        have hllh : llh = rh + 1 := by omega
        simp only [rightRotation, setLeft, setRight, height_leaf, height_branch,
          ← hll, ← hlr, ← er]
        refine ⟨?_, ?_, ?_⟩
        · simp only [HeightsOk, height_leaf, height_branch, ← hll, ← hlr, ← er]
          and_intros <;> first | assumption | omega | trivial
        · simp only [BalAll]
          and_intros <;> first | assumption | omega | trivial
        · omega
  · by_cases hc3 : (lh : Int) - (rh : Int) = -2
    · have hrh : rh = lh + 2 := by omega
      cases r with
      | leaf a b c e f =>
          exfalso
          rw [height_leaf] at er
          have := height_pos l
          omega
      | branch rk rver rlh rrh rlH rrH rl rr rhh rd =>
        simp only [HeightsOk] at hr
        obtain ⟨hrl, hrr, hokrl, hokrr⟩ := hr
        simp only [BalAll] at br
        obtain ⟨⟨hb1, hb2⟩, hbrl, hbrr⟩ := br
        rw [height_branch] at er
        have hposrl : 1 ≤ rlh := by rw [hrl]; exact height_pos rl
        have hposrr : 1 ≤ rrh := by rw [hrr]; exact height_pos rr
        simp only [balance]
        rw [if_neg hc1, if_pos hc3]
        by_cases hc4 : 0 < balanceFactor (.branch rk rver rlh rrh rlH rrH rl rr rhh rd)
        · rw [if_pos hc4]
          simp only [balanceFactor] at hc4
          have hrlh : rlh = lh + 1 := by omega
          have hrrh : rrh = lh := by omega
          cases rl with
          | leaf a2 b2 c2 e2 f2 =>
              exfalso
              rw [height_leaf] at hrl
              omega
          | branch mk mver mlh mrh mlH mrH ml mr mhh md =>
            simp only [HeightsOk] at hokrl
            obtain ⟨hml, hmr, hokml, hokmr⟩ := hokrl
            simp only [BalAll] at hbrl
            obtain ⟨⟨hmb1, hmb2⟩, hbml, hbmr⟩ := hbrl
            rw [height_branch] at hrl
            have hposml : 1 ≤ mlh := by rw [hml]; exact height_pos ml
            have hposmr : 1 ≤ mrh := by rw [hmr]; exact height_pos mr
            simp only [leftRotation, setLeft, setRight, rightRotation,
              height_leaf, height_branch, ← el, ← hml, ← hmr, ← hrr]
            refine ⟨?_, ?_, ?_⟩
            · simp only [HeightsOk, height_leaf, height_branch, ← el, ← hml, ← hmr, ← hrr]
              and_intros <;> first | assumption | omega | trivial
            · simp only [BalAll]
              and_intros <;> first | assumption | omega | trivial
            · omega
        · rw [if_neg hc4]
          simp only [balanceFactor] at hc4
          have hrrh : rrh = lh + 1 := by omega
          simp only [leftRotation, setLeft, setRight, height_leaf, height_branch,
            ← el, ← hrl, ← hrr]
          refine ⟨?_, ?_, ?_⟩
          · simp only [HeightsOk, height_leaf, height_branch, ← el, ← hrl, ← hrr]
            and_intros <;> first | assumption | omega | trivial
          · simp only [BalAll]
            and_intros <;> first | assumption | omega | trivial
          · omega
    · simp only [balance]
      rw [if_neg hc1, if_neg hc3]
      refine ⟨?_, ?_, ?_⟩
      · simp only [HeightsOk]
        and_intros <;> assumption
      · simp only [BalAll]
        and_intros <;> first | assumption | omega | trivial
      · left
        rw [height_branch]

/-! ## Association-list lemmas -/

theorem lookupKV_eq_none (q : Bytes) : ∀ L : List (Bytes × Bytes),
    lookupKV q L = none ↔ q ∉ L.map Prod.fst := by
  intro L
  induction L with
  | nil => simp [lookupKV]
  | cons p t ih =>
      simp only [lookupKV, List.map_cons, List.mem_cons, not_or]
      by_cases hp : p.1 = q
      · rw [if_pos hp]
        constructor
        · intro hcon
          exact absurd hcon (by simp)
        · rintro ⟨h1, _⟩
          exact absurd hp (Ne.symm h1)
      · rw [if_neg hp, ih]
        constructor
        · intro hcon
          exact ⟨Ne.symm hp, hcon⟩
        · rintro ⟨_, hcon⟩
          exact hcon

theorem lookupKV_isSome (q : Bytes) (L : List (Bytes × Bytes)) :
    (lookupKV q L).isSome = true ↔ q ∈ L.map Prod.fst := by
  constructor
  · intro h
    by_contra hmem
    rw [(lookupKV_eq_none q L).2 hmem] at h
    simp at h
  · intro hmem
    rcases ho : lookupKV q L with _ | v
    · exact absurd ((lookupKV_eq_none q L).1 ho) (by simp [hmem])
    · simp

theorem lookupKV_append_left (q : Bytes) (A B : List (Bytes × Bytes))
    (hB : q ∉ B.map Prod.fst) : lookupKV q (A ++ B) = lookupKV q A := by
  induction A with
  | nil => simp [(lookupKV_eq_none q B).2 hB, lookupKV]
  | cons p t ih => by_cases hp : p.1 = q <;> simp [lookupKV, hp, ih]

theorem lookupKV_append_right (q : Bytes) (A B : List (Bytes × Bytes))
    (hA : q ∉ A.map Prod.fst) : lookupKV q (A ++ B) = lookupKV q B := by
  induction A with
  | nil => simp
  | cons p t ih =>
      simp only [List.map_cons, List.mem_cons, not_or] at hA
      simp [lookupKV, Ne.symm hA.1, ih hA.2]

theorem insKV_append_left (key v : Bytes) (A B : List (Bytes × Bytes))
    (hB : ∀ p ∈ B, kLt key p.1) : insKV key v (A ++ B) = insKV key v A ++ B := by
  induction A with
  | nil =>
      cases B with
      | nil => simp [insKV]
      | cons p t => simp [insKV, hB p (by simp)]
  | cons p t ih =>
      by_cases h1 : kLt key p.1
      · simp [insKV, h1]
      · by_cases h2 : key = p.1
        · have h3 : ¬ kLt p.1 p.1 := kLt_irrefl p.1
          simp [insKV, h1, h2, h3]
        · simp [insKV, h1, h2, ih]

theorem insKV_append_right (key v : Bytes) (A B : List (Bytes × Bytes))
    (hA : ∀ p ∈ A, kLt p.1 key) : insKV key v (A ++ B) = A ++ insKV key v B := by
  induction A with
  | nil => simp
  | cons p t ih =>
      have hp : kLt p.1 key := hA p (by simp)
      have h1 : ¬ kLt key p.1 := kLt_asymm hp
      have h2 : key ≠ p.1 := (kLt_ne hp).symm
      simp [insKV, h1, h2, ih fun x hx => hA x (by simp [hx])]

theorem lookupKV_insKV (q key v : Bytes) : ∀ L : List (Bytes × Bytes),
    lookupKV q (insKV key v L) = if key = q then some v else lookupKV q L := by
  intro L
  induction L with
  | nil => by_cases hq : key = q <;> simp [insKV, lookupKV, hq]
  | cons p t ih =>
      simp only [insKV]
      by_cases h1 : kLt key p.1
      · rw [if_pos h1]
        simp [lookupKV]
      · by_cases h2 : key = p.1
        · rw [if_neg h1, if_pos h2]
          by_cases hq : key = q
          · subst hq
            simp [lookupKV]
          · have hp : ¬ (p.1 = q) := fun hh => hq (h2.trans hh)
            simp [lookupKV, hq, hp]
        · rw [if_neg h1, if_neg h2]
          by_cases hq : key = q
          · subst hq
            have hp : ¬ (p.1 = key) := fun hh => h2 hh.symm
            simp [lookupKV, hp, ih]
          · by_cases hp : p.1 = q <;> simp [lookupKV, hp, hq, ih]

theorem insKV_keys_subset (key v x : Bytes) : ∀ L : List (Bytes × Bytes),
    x ∈ (insKV key v L).map Prod.fst → x = key ∨ x ∈ L.map Prod.fst := by
  intro L
  induction L with
  | nil => simp [insKV]
  | cons p t ih =>
      by_cases h1 : kLt key p.1
      · simp only [insKV, if_pos h1, List.map_cons, List.mem_cons]
        tauto
      · by_cases h2 : key = p.1
        · simp only [insKV, if_neg h1, if_pos h2, List.map_cons, List.mem_cons]
          tauto
        · simp only [insKV, if_neg h1, if_neg h2, List.map_cons, List.mem_cons]
          intro hx
          rcases hx with hx | hx
          · exact Or.inr (Or.inl hx)
          · rcases ih hx with hx | hx
            · exact Or.inl hx
            · exact Or.inr (Or.inr hx)

theorem eraseKV_not_mem (key : Bytes) : ∀ L : List (Bytes × Bytes),
    key ∉ L.map Prod.fst → eraseKV key L = L := by
  intro L
  induction L with
  | nil => simp [eraseKV]
  | cons p t ih =>
      intro hk
      simp only [List.map_cons, List.mem_cons] at hk
      push_neg at hk
      simp [eraseKV, Ne.symm hk.1, ih hk.2]

theorem eraseKV_append_left (key : Bytes) (A B : List (Bytes × Bytes))
    (hB : key ∉ B.map Prod.fst) : eraseKV key (A ++ B) = eraseKV key A ++ B := by
  induction A with
  | nil => simp [eraseKV_not_mem key B hB, eraseKV]
  | cons p t ih => by_cases hp : p.1 = key <;> simp [eraseKV, hp, ih]

theorem eraseKV_append_right (key : Bytes) (A B : List (Bytes × Bytes))
    (hA : key ∉ A.map Prod.fst) : eraseKV key (A ++ B) = A ++ eraseKV key B := by
  induction A with
  | nil => simp
  | cons p t ih =>
      simp only [List.map_cons, List.mem_cons] at hA
      push_neg at hA
      simp [eraseKV, Ne.symm hA.1, ih hA.2]

theorem eraseKV_mem (key : Bytes) (p : Bytes × Bytes) : ∀ L : List (Bytes × Bytes),
    p ∈ eraseKV key L → p ∈ L := by
  intro L
  induction L with
  | nil => simp [eraseKV]
  | cons q t ih =>
      by_cases hq : q.1 = key
      · simp only [eraseKV, if_pos hq, List.mem_cons]
        tauto
      · simp only [eraseKV, if_neg hq, List.mem_cons]
        intro h
        rcases h with h | h
        · exact Or.inl h
        · exact Or.inr (ih h)

theorem eraseKV_keys_subset (key x : Bytes) (L : List (Bytes × Bytes))
    (hx : x ∈ (eraseKV key L).map Prod.fst) : x ∈ L.map Prod.fst := by
  simp only [List.mem_map] at hx ⊢
  obtain ⟨p, hp, he⟩ := hx
  exact ⟨p, eraseKV_mem key p L hp, he⟩

theorem lookupKV_eraseKV (q key : Bytes) : ∀ L : List (Bytes × Bytes),
    (L.map Prod.fst).Pairwise kLt →
    lookupKV q (eraseKV key L) = if key = q then none else lookupKV q L := by
  intro L
  induction L with
  | nil => simp [eraseKV, lookupKV]
  | cons p t ih =>
      intro hpw
      simp only [List.map_cons, List.pairwise_cons] at hpw
      obtain ⟨hhead, htail⟩ := hpw
      by_cases hp : p.1 = key
      · simp only [eraseKV, if_pos hp]
        by_cases hq : key = q
        · rw [if_pos hq]
          apply (lookupKV_eq_none q t).2
          intro hmem
          have h1 : kLt p.1 q := hhead q hmem
          rw [hp, hq] at h1
          exact kLt_irrefl q h1
        · rw [if_neg hq]
          have hpq : ¬ (p.1 = q) := fun hh => hq (hp.symm.trans hh)
          simp [lookupKV, hpq]
      · simp only [eraseKV, if_neg hp]
        by_cases hpq : p.1 = q
        · have hkq : ¬ (key = q) := fun hh => hp (hpq.trans hh.symm)
          simp [lookupKV, hpq, hkq]
        · simp [lookupKV, hpq, ih htail]

/-! ## Find and insert against the in-order list -/

theorem ordered_pairwise (n : PNode) (ho : OrderedN n) : (keys n).Pairwise kLt := by
  induction n with
  | leaf k v ver h d => simp [keys, toList]
  | branch k ver lh rh lH rH l r h d ihl ihr =>
      obtain ⟨hol, hor, hbl, hbr⟩ := ho
      rw [keys_branch, List.pairwise_append]
      refine ⟨ihl hol, ihr hor, ?_⟩
      intro a ha b hb
      have h1 : kLt a k := hbl a ha
      have h2 : ¬ kLt b k := hbr b hb
      rcases not_kLt_iff.1 h2 with he | hlt
      · rw [he]
        exact h1
      · exact kLt_trans _ _ _ h1 hlt

theorem find_lookup (q : Bytes) (n : PNode) (ho : OrderedN n) :
    (find n q).map pval = lookupKV q n.toList := by
  induction n with
  | leaf k v ver h d =>
      by_cases hq : bufCompare q k = .eq
      · have he : q = k := (bufCompare_eq_iff q k).1 hq
        subst he
        simp [find, lookupKV, toList, pval, hq]
      · have hne : ¬ (k = q) := fun hh => hq (by rw [hh]; exact bufCompare_self q)
        simp [find, lookupKV, toList, hq, hne]
  | branch k ver lh rh lH rH l r h d ihl ihr =>
      obtain ⟨hol, hor, hbl, hbr⟩ := ho
      simp only [find, toList]
      by_cases hq : bufCompare q k = .lt
      · rw [if_pos hq, lookupKV_append_left q _ _ ?_]
        · exact ihl hol
        · intro hmem
          exact hbr q hmem hq
      · rw [if_neg hq, lookupKV_append_right q _ _ ?_]
        · exact ihr hor
        · intro hmem
          exact hq (hbl q hmem)

theorem find_none_iff (q : Bytes) (n : PNode) (ho : OrderedN n) :
    find n q = none ↔ q ∉ keys n := by
  have h1 := find_lookup q n ho
  constructor
  · intro hf
    rw [hf] at h1
    exact (lookupKV_eq_none q n.toList).1 h1.symm
  · intro hmem
    rw [(lookupKV_eq_none q n.toList).2 hmem] at h1
    exact Option.map_eq_none'.1 h1

theorem mem_keys_elim (x : Bytes) (n : PNode) (hx : x ∈ keys n) :
    ∃ v, (x, v) ∈ n.toList := by
  simp only [keys, List.mem_map] at hx
  obtain ⟨⟨a, b⟩, hp, he⟩ := hx
  subst he
  exact ⟨b, hp⟩

theorem insert_spec (key value : Bytes) (n : PNode) :
    OrderedN n → HeightsOk n → BalAll n → SplitKeyAll n →
    ((OrderedN (insert n key value) ∧ HeightsOk (insert n key value) ∧
      BalAll (insert n key value) ∧ SplitKeyAll (insert n key value)) ∧
     (insert n key value).toList = insKV key value n.toList ∧
     ((insert n key value).height = n.height ∨
      (insert n key value).height = n.height + 1)) := by
  induction n with
  | leaf k v ver h d =>
      intro _ _ _ _
      rcases hc : bufCompare key k with _ | _ | _
      · have hlt : kLt key k := hc
        simp only [PNode.insert, hc]
        refine ⟨⟨?_, ?_, ?_, ?_⟩, ?_, ?_⟩
        · simp [OrderedN, newBranch, keys, toList, hlt, kLt_irrefl]
        · simp [HeightsOk, newBranch]
        · simp [BalAll, newBranch, height_leaf]
        · simp [SplitKeyAll, newBranch, leftmost, pkey]
        · simp [newBranch, toList, insKV, hlt]
        · simp [newBranch, height_leaf, height_branch]
      · have he : key = k := (bufCompare_eq_iff key k).1 hc
        subst he
        simp only [PNode.insert, hc]
        refine ⟨⟨?_, ?_, ?_, ?_⟩, ?_, ?_⟩
        · simp [OrderedN]
        · simp [HeightsOk]
        · simp [BalAll]
        · simp [SplitKeyAll]
        · simp [toList, insKV, kLt_irrefl]
        · simp [height_leaf]
      · have hgt : kLt k key := bufCompare_gt_iff.1 hc
        simp only [PNode.insert, hc]
        refine ⟨⟨?_, ?_, ?_, ?_⟩, ?_, ?_⟩
        · simp [OrderedN, newBranch, keys, toList, hgt, kLt_irrefl, kLt_asymm hgt]
        · simp [HeightsOk, newBranch]
        · simp [BalAll, newBranch, height_leaf]
        · simp [SplitKeyAll, newBranch, leftmost, pkey]
        · simp [newBranch, toList, insKV, kLt_asymm hgt, (kLt_ne hgt).symm]
        · simp [newBranch, height_leaf, height_branch]
  | branch k ver lh rh lH rH l r h d ihl ihr =>
      intro ho hh hb hs
      obtain ⟨hol, hor, hbl, hbr⟩ := ho
      simp only [HeightsOk] at hh
      obtain ⟨hel, her, hhl, hhr⟩ := hh
      simp only [BalAll] at hb
      obtain ⟨⟨hb1, hb2⟩, hbal, hbar⟩ := hb
      simp only [SplitKeyAll] at hs
      obtain ⟨hsk, hsl, hsr⟩ := hs
      by_cases hq : bufCompare key k = .lt
      · have harm : insert (.branch k ver lh rh lH rH l r h d) key value =
            balance (setLeft (.branch k ver lh rh lH rH l r h d) (insert l key value)) := by
          simp only [PNode.insert, hq]
        rw [harm]
        obtain ⟨⟨hoi, hhi, hbi, hsi⟩, hti, hhti⟩ := ihl hol hhl hbal hsl
        have hkm : ∀ x ∈ keys (insert l key value), kLt x k := by
          intro x hx
          rw [keys, hti] at hx
          rcases insKV_keys_subset key value x _ hx with he | hx2
          · rw [he]
            exact hq
          · exact hbl x hx2
        simp only [setLeft]
        have hba := balance_avl k ver (insert l key value).height rh none rH
          (insert l key value) r h
          (d || (insert l key value).dirty || decide (lH ≠ (insert l key value).hashOpt))
          hhi hhr hbi hbar rfl her (by omega) (by omega)
        obtain ⟨hba1, hba2, hba3⟩ := hba
        refine ⟨⟨?_, hba1, hba2, ?_⟩, ?_, ?_⟩
        · exact balance_ordered _ _ _ _ _ _ _ _ _ _ hoi hor hkm hbr
        · exact balance_splitkey _ _ _ _ _ _ _ _ _ _ hsk hsi hsr
        · rw [balance_toList, hti, toList]
          rw [insKV_append_left]
          intro p hp
          have hpk : ¬ kLt p.1 k := hbr p.1 (by simp [keys, List.mem_map]; exact ⟨p.2, hp⟩)
          rcases not_kLt_iff.1 hpk with he | hlt
          · rw [he]
            exact hq
          · exact kLt_trans _ _ _ hq hlt
        · rw [height_branch]
          omega
      · have harm : insert (.branch k ver lh rh lH rH l r h d) key value =
            balance (setRight (.branch k ver lh rh lH rH l r h d) (insert r key value)) := by
          rcases hc : bufCompare key k with _ | _ | _
          · exact absurd hc hq
          · simp only [PNode.insert, hc]
          · simp only [PNode.insert, hc]
        have hnl : ¬ kLt key k := hq
        rw [harm]
        obtain ⟨⟨hoi, hhi, hbi, hsi⟩, hti, hhti⟩ := ihr hor hhr hbar hsr
        have hkm : ∀ x ∈ keys (insert r key value), ¬ kLt x k := by
          intro x hx
          rw [keys, hti] at hx
          rcases insKV_keys_subset key value x _ hx with he | hx2
          · rw [he]
            exact hnl
          · exact hbr x hx2
        have hlkm : ∀ p ∈ l.toList, kLt p.1 key := by
          intro p hp
          have hpk : kLt p.1 k := hbl p.1 (by simp [keys, List.mem_map]; exact ⟨p.2, hp⟩)
          rcases not_kLt_iff.1 hnl with he | hlt
          · rw [← he] at hpk
            exact hpk
          · exact kLt_trans _ _ _ hpk hlt
        have hsknew : k = pkey (insert r key value).leftmost := by
          obtain ⟨v0, t0, ht0⟩ := leftmost_toList r
          obtain ⟨v1, t1, ht1⟩ := leftmost_toList (insert r key value)
          rw [hti, ht0, ← hsk] at ht1
          simp only [insKV] at ht1
          by_cases he : key = k
          · rw [if_neg hnl, if_pos he] at ht1
            rw [List.cons.injEq, Prod.mk.injEq] at ht1
            exact he.symm.trans ht1.1.1
          · rw [if_neg hnl, if_neg he] at ht1
            rw [List.cons.injEq, Prod.mk.injEq] at ht1
            exact ht1.1.1
        simp only [setRight]
        have hba := balance_avl k ver lh (insert r key value).height lH none
          l (insert r key value) h
          (d || (insert r key value).dirty || decide (rH ≠ (insert r key value).hashOpt))
          hhl hhi hbal hbi hel rfl (by omega) (by omega)
        obtain ⟨hba1, hba2, hba3⟩ := hba
        refine ⟨⟨?_, hba1, hba2, ?_⟩, ?_, ?_⟩
        · exact balance_ordered _ _ _ _ _ _ _ _ _ _ hol hoi hbl hkm
        · exact balance_splitkey _ _ _ _ _ _ _ _ _ _ hsknew hsl hsi
        · rw [balance_toList, hti, toList]
          rw [insKV_append_right]
          exact hlkm
        · rw [height_branch]
          omega

theorem toList_singleton_height (n : PNode) (p : Bytes × Bytes) (ht : n.toList = [p]) :
    n.height = 1 := by
  cases n with
  | leaf k v ver h d => rfl
  | branch k ver lh rh lH rH l r h d =>
      exfalso
      have h1 : l.toList.length + r.toList.length = 1 := by
        have h2 := congrArg List.length ht
        simpa [toList] using h2
      have h2 : 0 < l.toList.length := List.length_pos.2 (toList_ne_nil l)
      have h3 : 0 < r.toList.length := List.length_pos.2 (toList_ne_nil r)
      omega

theorem remove_spec (key : Bytes) (n : PNode) :
    OrderedN n → HeightsOk n → BalAll n → SplitKeyAll n →
    (∀ os, remove n key = (none, os) → ∃ v, n.toList = [(key, v)]) ∧
    (∀ m os, remove n key = (some m, os) →
      ((OrderedN m ∧ HeightsOk m ∧ BalAll m ∧ SplitKeyAll m) ∧
       m.toList = eraseKV key n.toList ∧
       (m.height = n.height ∨ m.height + 1 = n.height))) := by
  induction n with
  | leaf k v ver h d =>
      intro _ _ _ _
      by_cases hc : bufCompare key k = .eq
      · constructor
        · intro os _
          refine ⟨v, ?_⟩
          rw [toList, (bufCompare_eq_iff key k).1 hc]
        · intro m os heq
          simp only [remove, if_pos hc] at heq
          simp at heq
      · constructor
        · intro os heq
          simp only [remove, if_neg hc] at heq
          simp at heq
        · intro m os heq
          simp only [remove, if_neg hc, Prod.mk.injEq, Option.some.injEq] at heq
          obtain ⟨hm, hos⟩ := heq
          subst hm
          have hne : ¬ (k = key) := fun hh => hc (by rw [hh]; exact bufCompare_self key)
          refine ⟨⟨trivial, trivial, trivial, trivial⟩, ?_, Or.inl rfl⟩
          simp [toList, eraseKV, hne]
  | branch k ver lh rh lH rH l r h d ihl ihr =>
      intro ho hh hb hs
      obtain ⟨hol, hor, hbl, hbr⟩ := ho
      simp only [HeightsOk] at hh
      obtain ⟨hel, her, hhl, hhr⟩ := hh
      simp only [BalAll] at hb
      obtain ⟨⟨hb1, hb2⟩, hbal, hbar⟩ := hb
      simp only [SplitKeyAll] at hs
      obtain ⟨hsk, hsl, hsr⟩ := hs
      constructor
      · intro os heq
        exfalso
        simp only [remove] at heq
        by_cases hq : bufCompare key k = .lt
        · rw [if_pos hq] at heq
          rcases hrl : remove l key with ⟨ol, os1⟩
          rw [hrl] at heq
          cases ol <;> simp at heq
        · rw [if_neg hq] at heq
          rcases hrr : remove r key with ⟨orr, os1⟩
          rw [hrr] at heq
          cases orr <;> simp at heq
      · intro m os heq
        simp only [remove] at heq
        by_cases hq : bufCompare key k = .lt
        · rw [if_pos hq] at heq
          rcases hrl : remove l key with ⟨ol, os1⟩
          rw [hrl] at heq
          cases ol with
          | some l1 =>
              simp only [Prod.mk.injEq, Option.some.injEq] at heq
              obtain ⟨hm, hos⟩ := heq
              subst hm
              obtain ⟨⟨hoi, hhi, hbi, hsi⟩, hti, hhti⟩ :=
                (ihl hol hhl hbal hsl).2 l1 os1 hrl
              have hkm : ∀ x ∈ keys l1, kLt x k := by
                intro x hx
                rw [keys, hti] at hx
                exact hbl x (eraseKV_keys_subset key x _ hx)
              simp only [setLeft]
              have hba := balance_avl k ver l1.height rh none rH l1 r h
                (d || l1.dirty || decide (lH ≠ l1.hashOpt))
                hhi hhr hbi hbar rfl her (by omega) (by omega)
              obtain ⟨hba1, hba2, hba3⟩ := hba
              refine ⟨⟨?_, hba1, hba2, ?_⟩, ?_, ?_⟩
              · exact balance_ordered _ _ _ _ _ _ _ _ _ _ hoi hor hkm hbr
              · exact balance_splitkey _ _ _ _ _ _ _ _ _ _ hsk hsi hsr
              · rw [balance_toList, hti, toList, eraseKV_append_left]
                intro hmem
                exact hbr key hmem hq
              · rw [height_branch]
                omega
          | none =>
              simp only [Prod.mk.injEq, Option.some.injEq] at heq
              obtain ⟨hm, hos⟩ := heq
              subst hm
              obtain ⟨v0, hv0⟩ := (ihl hol hhl hbal hsl).1 os1 hrl
              refine ⟨⟨hor, hhr, hbar, hsr⟩, ?_, ?_⟩
              · rw [toList, hv0]
                simp [eraseKV]
              · have h1 : l.height = 1 := toList_singleton_height l _ hv0
                rw [height_branch]
                have h2 := height_pos r
                omega
        · rw [if_neg hq] at heq
          rcases hrr : remove r key with ⟨orr, os1⟩
          rw [hrr] at heq
          cases orr with
          | some r1 =>
              simp only [] at heq
              obtain ⟨⟨hoi, hhi, hbi, hsi⟩, hti, hhti⟩ :=
                (ihr hor hhr hbar hsr).2 r1 os1 hrr
              have hksub : ∀ x ∈ keys r1, x ∈ keys r := by
                intro x hx
                rw [keys, hti] at hx
                exact eraseKV_keys_subset key x _ hx
              by_cases hc2 : bufCompare key k = .eq
              · rw [if_pos hc2] at heq
                simp only [Prod.mk.injEq, Option.some.injEq] at heq
                obtain ⟨hm, hos⟩ := heq
                subst hm
                have hkeq : key = k := (bufCompare_eq_iff key k).1 hc2
                have hk1r : pkey r1.leftmost ∈ keys r := hksub _ (leftmost_mem_keys r1)
                have hk1 : ¬ kLt (pkey r1.leftmost) k := hbr _ hk1r
                have hbl1 : ∀ x ∈ keys l, kLt x (pkey r1.leftmost) := by
                  intro x hx
                  have hxk : kLt x k := hbl x hx
                  rcases not_kLt_iff.1 hk1 with he | hlt
                  · rw [← he] at hxk
                    exact hxk
                  · exact kLt_trans _ _ _ hxk hlt
                have hbr1 : ∀ x ∈ keys r1, ¬ kLt x (pkey r1.leftmost) :=
                  leftmost_min r1 hoi
                simp only [setRight, setKey]
                have hba := balance_avl (pkey r1.leftmost) ver lh r1.height lH none l r1 h
                  (d || r1.dirty || decide (rH ≠ r1.hashOpt))
                  hhl hhi hbal hbi hel rfl (by omega) (by omega)
                obtain ⟨hba1, hba2, hba3⟩ := hba
                refine ⟨⟨?_, hba1, hba2, ?_⟩, ?_, ?_⟩
                · exact balance_ordered _ _ _ _ _ _ _ _ _ _ hol hoi hbl1 hbr1
                · exact balance_splitkey _ _ _ _ _ _ _ _ _ _ rfl hsl hsi
                · rw [balance_toList, hti, toList, eraseKV_append_right]
                  intro hmem
                  rw [hkeq] at hmem
                  exact kLt_irrefl k (hbl k hmem)
                · rw [height_branch]
                  omega
              · rw [if_neg hc2] at heq
                simp only [Prod.mk.injEq, Option.some.injEq] at heq
                obtain ⟨hm, hos⟩ := heq
                subst hm
                have hgt : kLt k key := by
                  rcases hcc : bufCompare key k with _ | _ | _
                  · exact absurd hcc hq
                  · exact absurd hcc hc2
                  · exact bufCompare_gt_iff.1 hcc
                have hbr1 : ∀ x ∈ keys r1, ¬ kLt x k := fun x hx => hbr x (hksub x hx)
                have hsknew : k = pkey r1.leftmost := by
                  obtain ⟨v0, t0, ht0⟩ := leftmost_toList r
                  obtain ⟨v1, t1, ht1⟩ := leftmost_toList r1
                  rw [hti, ht0, ← hsk] at ht1
                  simp only [eraseKV] at ht1
                  rw [if_neg (by exact fun hh => (kLt_ne hgt) hh)] at ht1
                  rw [List.cons.injEq, Prod.mk.injEq] at ht1
                  exact ht1.1.1
                simp only [setRight]
                have hba := balance_avl k ver lh r1.height lH none l r1 h
                  (d || r1.dirty || decide (rH ≠ r1.hashOpt))
                  hhl hhi hbal hbi hel rfl (by omega) (by omega)
                obtain ⟨hba1, hba2, hba3⟩ := hba
                refine ⟨⟨?_, hba1, hba2, ?_⟩, ?_, ?_⟩
                · exact balance_ordered _ _ _ _ _ _ _ _ _ _ hol hoi hbl hbr1
                · exact balance_splitkey _ _ _ _ _ _ _ _ _ _ hsknew hsl hsi
                · rw [balance_toList, hti, toList, eraseKV_append_right]
                  intro hmem
                  exact kLt_asymm hgt (hbl key hmem)
                · rw [height_branch]
                  omega
          | none =>
              simp only [Prod.mk.injEq, Option.some.injEq] at heq
              obtain ⟨hm, hos⟩ := heq
              subst hm
              obtain ⟨v0, hv0⟩ := (ihr hor hhr hbar hsr).1 os1 hrr
              have hknl : key ∉ (l.toList).map Prod.fst := by
                intro hmem
                have hk : key ∈ keys r := by
                  rw [keys, hv0]
                  simp
                exact hbr key hk (hbl key hmem)
              refine ⟨⟨hol, hhl, hbal, hsl⟩, ?_, ?_⟩
              · rw [toList, hv0, eraseKV_append_right key _ _ hknl]
                simp [eraseKV]
              · have h1 : r.height = 1 := toList_singleton_height r _ hv0
                rw [height_branch]
                have h2 := height_pos l
                omega

/-! ## Persist preserves tree structure -/

theorem persist_node_false (v : Nat) (k : Bytes) (ver : Option Nat) (lh rh : Nat)
    (lH rH : Option Hash) (l r : PNode) (h : Option Hash) :
    (persist v (.branch k ver lh rh lH rH l r h false)).1 =
      .branch k ver lh rh (persist v l).1.hashOpt (persist v r).1.hashOpt
        (persist v l).1 (persist v r).1 h false := by
  simp [persist]

theorem persist_node_true (v : Nat) (k : Bytes) (ver : Option Nat) (lh rh : Nat)
    (lH rH : Option Hash) (l r : PNode) (h : Option Hash) :
    (persist v (.branch k ver lh rh lH rH l r h true)).1 =
      .branch k (some v) lh rh (persist v l).1.hashOpt (persist v r).1.hashOpt
        (persist v l).1 (persist v r).1
        (some (.hBranch v (Hash.fromOpt (persist v l).1.hashOpt)
          (Hash.fromOpt (persist v r).1.hashOpt))) false := by
  simp [persist]

theorem persist_shape (v : Nat) (n : PNode) :
    (persist v n).1.toList = n.toList ∧
    (persist v n).1.height = n.height ∧
    pkey (persist v n).1.leftmost = pkey n.leftmost ∧
    (HeightsOk n → HeightsOk (persist v n).1) ∧
    (BalAll n → BalAll (persist v n).1) ∧
    (OrderedN n → OrderedN (persist v n).1) ∧
    (SplitKeyAll n → SplitKeyAll (persist v n).1) := by
  induction n with
  | leaf k v2 ver h d =>
      cases d <;>
        simp [persist, toList, height_leaf, leftmost, pkey, HeightsOk, BalAll,
          OrderedN, SplitKeyAll]
  | branch k ver lh rh lH rH l r h d ihl ihr =>
      obtain ⟨htl, hhl2, hlml, hokl, hbll, holl, hsll⟩ := ihl
      obtain ⟨htr, hhr2, hlmr, hokr, hblr, holr, hslr⟩ := ihr
      have hkeysl : keys (persist v l).1 = keys l := by rw [keys, htl, keys]
      have hkeysr : keys (persist v r).1 = keys r := by rw [keys, htr, keys]
      cases d
      case false =>
        rw [persist_node_false]
        refine ⟨?_, rfl, ?_, ?_, ?_, ?_, ?_⟩
        · simp [toList, htl, htr]
        · simp only [leftmost]
          exact hlml
        · intro hx
          simp only [HeightsOk] at hx ⊢
          obtain ⟨h1, h2, h3, h4⟩ := hx
          exact ⟨by rw [hhl2]; exact h1, by rw [hhr2]; exact h2, hokl h3, hokr h4⟩
        · intro hx
          simp only [BalAll] at hx ⊢
          obtain ⟨h1, h3, h4⟩ := hx
          exact ⟨h1, hbll h3, hblr h4⟩
        · intro hx
          simp only [OrderedN, keys_branch] at hx ⊢
          obtain ⟨h1, h2, h3, h4⟩ := hx
          rw [hkeysl, hkeysr]
          exact ⟨holl h1, holr h2, h3, h4⟩
        · intro hx
          simp only [SplitKeyAll] at hx ⊢
          obtain ⟨h1, h3, h4⟩ := hx
          exact ⟨by rw [hlmr]; exact h1, hsll h3, hslr h4⟩
      case true =>
        rw [persist_node_true]
        refine ⟨?_, rfl, ?_, ?_, ?_, ?_, ?_⟩
        · simp [toList, htl, htr]
        · simp only [leftmost]
          exact hlml
        · intro hx
          simp only [HeightsOk] at hx ⊢
          obtain ⟨h1, h2, h3, h4⟩ := hx
          exact ⟨by rw [hhl2]; exact h1, by rw [hhr2]; exact h2, hokl h3, hokr h4⟩
        · intro hx
          simp only [BalAll] at hx ⊢
          obtain ⟨h1, h3, h4⟩ := hx
          exact ⟨h1, hbll h3, hblr h4⟩
        · intro hx
          simp only [OrderedN, keys_branch] at hx ⊢
          obtain ⟨h1, h2, h3, h4⟩ := hx
          rw [hkeysl, hkeysr]
          exact ⟨holl h1, holr h2, h3, h4⟩
        · intro hx
          simp only [SplitKeyAll] at hx ⊢
          obtain ⟨h1, h3, h4⟩ := hx
          exact ⟨by rw [hlmr]; exact h1, hsll h3, hslr h4⟩

/-! ## Operation sequences: refinement to the spec map -/

theorem hasVal_eq_isSome (root : Option PNode) (q : Bytes) :
    hasVal root q = (getVal root q).isSome := by
  cases root with
  | none => rfl
  | some n => simp [hasVal, getVal]

theorem treeApply_inv (st : Option PNode × Nat) (op : Op) (hI : InvO st.1) :
    InvO (treeApply st op).1 ∧
    ∀ q, getVal (treeApply st op).1 q = specUpd q (getVal st.1 q) op := by
  rcases st with ⟨root, ver⟩
  cases op with
  | ins k v =>
      cases root with
      | none =>
          obtain ⟨ht, hh, hlm, hok, hbl, hol, hsl⟩ :=
            persist_shape (ver + 1) (.leaf k v none none true)
          constructor
          · exact ⟨hol trivial, hok trivial, hbl trivial, hsl trivial⟩
          · intro q
            have hfind := find_lookup q (persist (ver + 1) (.leaf k v none none true)).1
              (hol trivial)
            simp only [treeApply, getVal, hfind, ht, toList]
            by_cases hq : k = q
            · subst hq
              simp [lookupKV, specUpd]
            · have hq2 : ¬ bufCompare q k = .eq :=
                fun hh => hq ((bufCompare_eq_iff q k).1 hh).symm
            -- lookup [(k,v)] q = none
              simp [lookupKV, specUpd, hq, Ne.symm hq]
      | some n =>
          obtain ⟨hon, hhn, hbn, hsn⟩ := hI
          obtain ⟨⟨hoi, hhi, hbi, hsi⟩, hti, _⟩ := insert_spec k v n hon hhn hbn hsn
          obtain ⟨ht, hh, hlm, hok, hbl, hol, hsl⟩ := persist_shape (ver + 1) (insert n k v)
          constructor
          · exact ⟨hol hoi, hok hhi, hbl hbi, hsl hsi⟩
          · intro q
            have hfind := find_lookup q (persist (ver + 1) (insert n k v)).1 (hol hoi)
            have hfind2 := find_lookup q n hon
            simp only [treeApply, getVal, hfind, hfind2, ht, hti, lookupKV_insKV, specUpd]
  | del k =>
      cases root with
      | none =>
          refine ⟨trivial, ?_⟩
          intro q
          simp only [treeApply, getVal, specUpd]
          by_cases hq : k = q <;> simp [hq]
      | some n =>
          obtain ⟨hon, hhn, hbn, hsn⟩ := hI
          rcases hrm : (remove n k).1 with _ | m
          · obtain ⟨v0, hv0⟩ := (remove_spec k n hon hhn hbn hsn).1 (remove n k).2
              (by rw [← hrm])
            constructor
            · simp only [treeApply, hrm]
              trivial
            · intro q
              have hfind2 := find_lookup q n hon
              simp only [treeApply, hrm, getVal, specUpd, hfind2, hv0]
              by_cases hq : k = q
              · simp [hq]
              · simp [lookupKV, hq, Ne.symm hq]
          · obtain ⟨⟨hoi, hhi, hbi, hsi⟩, hti, _⟩ :=
              (remove_spec k n hon hhn hbn hsn).2 m (remove n k).2 (by rw [← hrm])
            obtain ⟨ht, hh, hlm, hok, hbl, hol, hsl⟩ := persist_shape (ver + 1) m
            constructor
            · simp only [treeApply, hrm]
              exact ⟨hol hoi, hok hhi, hbl hbi, hsl hsi⟩
            · intro q
              have hfind := find_lookup q (persist (ver + 1) m).1 (hol hoi)
              have hfind2 := find_lookup q n hon
              have hpw := ordered_pairwise n hon
              simp only [treeApply, hrm, getVal, hfind, hfind2, ht, hti, specUpd,
                lookupKV_eraseKV q k n.toList hpw]

theorem runOps_inv (ops : List Op) : ∀ st : Option PNode × Nat, InvO st.1 →
    InvO (ops.foldl treeApply st).1 ∧
    ∀ q, getVal (ops.foldl treeApply st).1 q =
      ops.foldl (fun acc op => specUpd q acc op) (getVal st.1 q) := by
  induction ops with
  | nil =>
      intro st hI
      exact ⟨hI, fun q => rfl⟩
  | cons op rest ih =>
      intro st hI
      obtain ⟨h1, h2⟩ := treeApply_inv st op hI
      obtain ⟨h3, h4⟩ := ih (treeApply st op) h1
      refine ⟨h3, fun q => ?_⟩
      rw [List.foldl_cons, List.foldl_cons, h4 q, h2 q]

/-! ## Claim theorems C1, C4, C7 -/

/-- C1: for every sequence of insert/remove operations applied to an initially
empty tree, `get(k)` returns `v` iff the most recent insert for key `k`
inserted value `v` and no later remove deleted `k` (the fold `specGet`);
otherwise `get(k)` is absent, and `has(k)` mirrors presence exactly. -/
theorem c1_get_matches_spec (ops : List Op) (q : Bytes) :
    getVal (applyOps ops) q = specGet ops q ∧
    hasVal (applyOps ops) q = (specGet ops q).isSome := by
  have h := runOps_inv ops (none, 0) trivial
  have h2 := h.2 q
  constructor
  · rw [applyOps, specGet, h2]
    rfl
  · rw [hasVal_eq_isSome, applyOps, h2]
    rw [specGet]
    rfl

/-- C4: after every sequence of insert/remove operations on an initially empty
tree, every reachable Branch satisfies `|leftHeight - rightHeight| ≤ 1` (and
the stored subtree heights are the true heights), i.e. the AVL balance
invariant is restored by the balance step after each operation. -/
theorem c4_avl_balance (ops : List Op) : BalAllO (applyOps ops) := by
  have h := (runOps_inv ops (none, 0) trivial).1
  rw [applyOps]
  rcases hr : (ops.foldl treeApply (none, 0)).1 with _ | n
  · simp [BalAllO]
  · rw [hr] at h
    obtain ⟨hon, hhn, hbn, hsn⟩ := h
    exact ⟨hbn, hhn⟩

/-- C7: after every sequence of insert/remove operations on an initially empty
tree, every reachable Branch node's key equals the key of the leftmost leaf of
its right subtree (the split-key invariant). -/
theorem c7_branch_split_key (ops : List Op) : SplitKeyAllO (applyOps ops) := by
  have h := (runOps_inv ops (none, 0) trivial).1
  rw [applyOps]
  rcases hr : (ops.foldl treeApply (none, 0)).1 with _ | n
  · simp [SplitKeyAllO]
  · rw [hr] at h
    obtain ⟨hon, hhn, hbn, hsn⟩ := h
    exact hsn

/-! ## Clean trees and persist -/

theorem persist_leaf_false (v : Nat) (k val : Bytes) (ver : Option Nat) (h : Option Hash) :
    persist v (.leaf k val ver h false) = (.leaf k val ver h false, [], []) := by
  simp [persist]

theorem persist_branch_false (v : Nat) (k : Bytes) (ver : Option Nat) (lh rh : Nat)
    (lH rH : Option Hash) (l r : PNode) (h : Option Hash) :
    persist v (.branch k ver lh rh lH rH l r h false) =
      (.branch k ver lh rh (persist v l).1.hashOpt (persist v r).1.hashOpt
        (persist v l).1 (persist v r).1 h false,
       (persist v l).2.1 ++ (persist v r).2.1,
       (persist v l).2.2 ++ (persist v r).2.2) := by
  simp [persist]

theorem clean_persist (n : PNode) (hc : Clean n) : ∀ v, persist v n = (n, [], []) := by
  induction n with
  | leaf k val ver h d =>
      intro v
      simp only [Clean] at hc
      subst hc
      exact persist_leaf_false v k val ver h
  | branch k ver lh rh lH rH l r h d ihl ihr =>
      intro v
      simp only [Clean] at hc
      obtain ⟨hd, hlH, hrH, hcl, hcr⟩ := hc
      subst hd
      rw [persist_branch_false, ihl hcl v, ihr hcr v]
      rw [hlH, hrH]
      rfl

theorem persist_clean (v : Nat) (n : PNode) : Clean (persist v n).1 := by
  induction n with
  | leaf k val ver h d =>
      cases d <;> simp [persist, Clean]
  | branch k ver lh rh lH rH l r h d ihl ihr =>
      cases d
      case false =>
        rw [persist_node_false]
        exact ⟨rfl, rfl, rfl, ihl, ihr⟩
      case true =>
        rw [persist_node_true]
        exact ⟨rfl, rfl, rfl, ihl, ihr⟩

/-! ## Removing an absent key is a structural no-op -/

theorem remove_absent (k : Bytes) (n : PNode)
    (hc : Clean n) (ho : OrderedN n) (hh : HeightsOk n) (hb : BalAll n)
    (hs : SplitKeyAll n) (habs : find n k = none) :
    ∃ m, remove n k = (some m, []) ∧ m.hashOpt = n.hashOpt ∧ m.height = n.height ∧
      m.dirty = false ∧ ∀ v, persist v m = (n, [], []) := by
  induction n with
  | leaf k0 val ver h d =>
      simp only [Clean] at hc
      subst hc
      have hne : ¬ (bufCompare k k0 = .eq) := by
        intro hcon
        rw [find, if_pos hcon] at habs
        exact Option.some_ne_none _ habs
      refine ⟨.leaf k0 val ver h false, ?_, rfl, rfl, rfl, ?_⟩
      · rw [remove, if_neg hne]
      · intro v
        exact persist_leaf_false v k0 val ver h
  | branch k0 ver lh rh lH rH l r h d ihl ihr =>
      obtain ⟨hol, hor, hbl, hbr⟩ := ho
      simp only [HeightsOk] at hh
      obtain ⟨hel, her, hhl, hhr⟩ := hh
      simp only [BalAll] at hb
      obtain ⟨⟨hb1, hb2⟩, hbal, hbar⟩ := hb
      simp only [SplitKeyAll] at hs
      obtain ⟨hsk, hsl, hsr⟩ := hs
      simp only [Clean] at hc
      obtain ⟨hd, hlH, hrH, hcl, hcr⟩ := hc
      subst hd
      have hobr : OrderedN (.branch k0 ver lh rh lH rH l r h false) := by
        simp only [OrderedN]
        exact ⟨hol, hor, hbl, hbr⟩
      have hnotmem : k ∉ keys (.branch k0 ver lh rh lH rH l r h false) :=
        (find_none_iff k _ hobr).1 habs
      have hk0mem : k0 ∈ keys (.branch k0 ver lh rh lH rH l r h false) := by
        rw [keys_branch, hsk]
        exact List.mem_append.2 (Or.inr (leftmost_mem_keys r))
      have hne : ¬ (bufCompare k k0 = .eq) := by
        intro hcon
        rw [(bufCompare_eq_iff k k0).1 hcon] at hnotmem
        exact hnotmem hk0mem
      by_cases hq : bufCompare k k0 = .lt
      · have habsl : find l k = none := by
          rw [find, if_pos hq] at habs
          exact habs
        obtain ⟨ml, hml, hhash, hheight, hdirty, hper⟩ := ihl hcl hol hhl hbal hsl habsl
        have hset : setLeft (.branch k0 ver lh rh lH rH l r h false) ml =
            .branch k0 ver ml.height rh none rH ml r h false := by
          simp [setLeft, hdirty, hlH, hhash]
        have hbalid : balance (.branch k0 ver ml.height rh none rH ml r h false) =
            .branch k0 ver ml.height rh none rH ml r h false := by
          apply balance_id
          · rw [hheight, ← hel]
            exact hb1
          · rw [hheight, ← hel]
            exact hb2
        have hrm : remove (.branch k0 ver lh rh lH rH l r h false) k =
            (some (.branch k0 ver ml.height rh none rH ml r h false), []) := by
          simp only [remove, hml, if_pos hq]
          rw [hset, hbalid]
        refine ⟨_, hrm, rfl, ?_, rfl, ?_⟩
        · rw [height_branch, height_branch, hheight, ← hel]
        · intro v
          simp [persist_branch_false, hper v, clean_persist r hcr v, hlH, hrH,
            hheight, hel]
      · have habsr : find r k = none := by
          rw [find, if_neg hq] at habs
          exact habs
        obtain ⟨mr, hmr, hhash, hheight, hdirty, hper⟩ := ihr hcr hor hhr hbar hsr habsr
        have hset : setRight (.branch k0 ver lh rh lH rH l r h false) mr =
            .branch k0 ver lh mr.height lH none l mr h false := by
          simp [setRight, hdirty, hrH, hhash]
        have hbalid : balance (.branch k0 ver lh mr.height lH none l mr h false) =
            .branch k0 ver lh mr.height lH none l mr h false := by
          apply balance_id
          · rw [hheight, ← her]
            exact hb1
          · rw [hheight, ← her]
            exact hb2
        have hrm : remove (.branch k0 ver lh rh lH rH l r h false) k =
            (some (.branch k0 ver lh mr.height lH none l mr h false), []) := by
          simp only [remove, hmr, if_neg hq, if_neg hne]
          rw [hset, hbalid]
        refine ⟨_, hrm, rfl, ?_, rfl, ?_⟩
        · rw [height_branch, height_branch, hheight, ← her]
        · intro v
          simp [persist_branch_false, clean_persist l hcl v, hper v, hlH, hrH,
            hheight, her]

/-! ## Claim theorems C9 and C10 -/

/-- C9: removing an absent key from a non-empty clean tree leaves the tree
structure unchanged (no node modified, no orphan emitted, no node rewritten),
yet the top-level `Tree.remove` still increments the version by one and records
a new version entry carrying the unchanged root hash. -/
theorem c9_remove_absent_noop (t : TreeSt) (n : PNode) (k : Bytes)
    (hroot : t.root = some n) (hrh : t.rootHash = n.hashOpt)
    (hdepth : t.store.txDepth = 0)
    (hc : Clean n) (ho : OrderedN n) (hh : HeightsOk n) (hb : BalAll n)
    (hs : SplitKeyAll n) (habs : find n k = none) :
    treeRemove t k =
      ({ store := putVersion { t.store with version := t.store.version + 1 }
           (t.store.version + 1) t.rootHash,
         root := some n, rootHash := t.rootHash }, [], []) := by
  obtain ⟨m, hrm, hhash, hheight, hdirty, hper⟩ := remove_absent k n hc ho hh hb hs habs
  rw [treeRemove, hroot, hdepth]
  simp [hrm, hper, hrh]

/-- C10: persist is idempotent: a node materialized from the store with a hash
present has `isDirty = false`; persisting an all-clean tree performs no node or
orphan writes and leaves the tree (hence its hash) unchanged; and the result of
any persist is clean, so an immediately repeated persist is a no-op. -/
theorem c10_persist_idempotent :
    (∀ (c : CompactNode) (h : Hash),
      (fromCompact (some c) (some h)).map NodeData.dirtyD = some false) ∧
    (∀ n : PNode, Clean n → ∀ v, persist v n = (n, [], [])) ∧
    (∀ (v : Nat) (n : PNode), Clean (persist v n).1 ∧
      persist v ((persist v n).1) = ((persist v n).1, [], [])) := by
  refine ⟨?_, fun n hc v => clean_persist n hc v, fun v n => ?_⟩
  · intro c h
    cases c <;> simp [fromCompact, NodeData.dirtyD]
  · exact ⟨persist_clean v n, clean_persist _ (persist_clean v n) v⟩

/-- Witness for C10 at a concrete clean leaf. -/
theorem c10_persist_idempotent_witness :
    Clean (PNode.leaf [1] [2] (some 1) (some (.hLeaf 1 [1] [2])) false) ∧
    persist 5 (PNode.leaf [1] [2] (some 1) (some (.hLeaf 1 [1] [2])) false) =
      (PNode.leaf [1] [2] (some 1) (some (.hLeaf 1 [1] [2])) false, [], []) :=
  ⟨by decide, c10_persist_idempotent.2.1 _ (by decide) 5⟩


/-! ## Merkle-proof path lemmas -/

theorem landing_is_leaf (n : PNode) (key : Bytes) :
    ∃ a b c dd e, landing n key = PNode.leaf a b c dd e := by
  induction n with
  | leaf a b c dd e => exact ⟨a, b, c, dd, e, rfl⟩
  | branch k ver lh rh lH rH l r h d ihl ihr =>
      by_cases hq : bufCompare key k = .lt
      · simpa [landing, hq] using ihl
      · simpa [landing, hq] using ihr

theorem findPath_decomp (n : PNode) (key : Bytes) :
    ∀ acc, findPath n key acc = acc ++ landing n key :: pathBranches n key := by
  induction n with
  | leaf a b c dd e => intro acc; simp [findPath, landing, pathBranches]
  | branch k ver lh rh lH rH l r h d ihl ihr =>
      intro acc
      by_cases hq : bufCompare key k = .lt
      · simp [findPath, landing, pathBranches, hq, ihl]
      · simp [findPath, landing, pathBranches, hq, ihr]

theorem getProof_eq (n : PNode) (key : Bytes) (a b : Bytes) (c : Option Nat)
    (dd : Option Hash) (e : Bool) (hl : landing n key = PNode.leaf a b c dd e) :
    getProof (some n) key =
      some ((c.getD 0, key, b), (pathBranches n key).map (branchEntry key)) := by
  simp [getProof, findPath_decomp n key [], hl]

theorem getProof_isSome (n : PNode) (key : Bytes) :
    (getProof (some n) key).isSome = true := by
  obtain ⟨a, b, c, dd, e, hl⟩ := landing_is_leaf n key
  rw [getProof_eq n key a b c dd e hl]
  rfl

/-! ## Claim C3: counterexample and amended statement -/

/-- C3 counterexample: on the one-leaf tree with key `[1]` the key `[9]` is
absent (`find` returns nothing), yet `getProof` succeeds: the source only
checks that the node popped from `findPath` is a `Leaf` (`instanceof Leaf`),
never that its key equals the query key, and it then stores the QUERY key in
the returned proof triple. -/
theorem c3_cex_absent_key_proof :
    find leafW [9] = none ∧ (getProof (some leafW) [9]).isSome = true := by
  decide

/-- C3 (amended): `getProof` never fails on a non-empty tree — for every query
key, present or absent, `findPath` lands on a Leaf, and only leaf-ness is
checked — and it fails exactly on an empty tree. -/
theorem c3_getproof_total_nonempty :
    (∀ key : Bytes, getProof none key = none) ∧
    (∀ (n : PNode) (key : Bytes), (getProof (some n) key).isSome = true) :=
  ⟨fun _ => rfl, fun n key => getProof_isSome n key⟩

/-- Witness for C9: the concrete one-leaf tree `treeW` with absent key `[9]`. -/
theorem c9_remove_absent_noop_witness :
    treeRemove treeW [9] =
      ({ store := putVersion { treeW.store with version := treeW.store.version + 1 }
           (treeW.store.version + 1) treeW.rootHash,
         root := some leafW, rootHash := treeW.rootHash }, [], []) :=
  c9_remove_absent_noop treeW leafW [9] rfl rfl rfl (by decide) (by decide)
    (by decide) (by decide) (by decide) (by decide)

/-! ## The clean-parts hash invariant `HashedW` -/

theorem hashed_hashOpt_ne (n : PNode) (hH : Hashed n) : n.hashOpt ≠ none := by
  cases n with
  | leaf k v ver h d =>
      simp only [Hashed] at hH
      obtain ⟨hver, hh⟩ := hH
      rcases ver with _ | vn
      · exact absurd rfl hver
      · simp [hashOpt, hh]
  | branch k ver lh rh lH rH l r h d =>
      simp only [Hashed] at hH
      obtain ⟨_, _, hver, _, _, _, _, hh⟩ := hH
      rcases ver with _ | vn
      · exact absurd rfl hver
      · simp [hashOpt, hh]

theorem hashOpt_some_fromOpt (n : PNode) (hne : n.hashOpt ≠ none) :
    n.hashOpt = some (Hash.fromOpt n.hashOpt) := by
  rcases hh : n.hashOpt with _ | x
  · exact absurd hh hne
  · rfl

theorem hashedW_hashOpt_ne (n : PNode) (hW : HashedW n) (hd : n.dirty = false) :
    n.hashOpt ≠ none := by
  cases n with
  | leaf k v ver h d =>
      simp only [HashedW] at hW
      obtain ⟨hver, hh⟩ := hW hd
      rcases ver with _ | vn
      · exact absurd rfl hver
      · simp [hashOpt, hh]
  | branch k ver lh rh lH rH l r h d =>
      simp only [HashedW] at hW
      obtain ⟨_, _, hcl⟩ := hW
      obtain ⟨_, _, hver, _, _, hh⟩ := hcl hd
      rcases ver with _ | vn
      · exact absurd rfl hver
      · simp [hashOpt, hh]

theorem clean_dirty_false (n : PNode) (hc : Clean n) : n.dirty = false := by
  cases n with
  | leaf k v ver h d => exact hc
  | branch k ver lh rh lH rH l r h d =>
      simp only [Clean] at hc
      exact hc.1

theorem hashed_clean_hashedW (n : PNode) (hH : Hashed n) (hc : Clean n) : HashedW n := by
  induction n with
  | leaf k v ver h d =>
      simp only [Hashed] at hH
      simp only [HashedW]
      intro _
      exact hH
  | branch k ver lh rh lH rH l r h d ihl ihr =>
      simp only [Hashed] at hH
      simp only [Clean] at hc
      obtain ⟨hHl, hHr, hver, hlne, hrne, hlHe, hrHe, hh⟩ := hH
      obtain ⟨hd, hlH2, hrH2, hcl, hcr⟩ := hc
      simp only [HashedW]
      refine ⟨ihl hHl hcl, ihr hHr hcr, fun _ => ?_⟩
      refine ⟨clean_dirty_false l hcl, clean_dirty_false r hcr, hver,
        Or.inl hlHe, Or.inl hrHe, ?_⟩
      rw [hh, hlHe, hrHe]

theorem setLeft_hashedW (n c : PNode) (hn : HashedW n) (hc : HashedW c) :
    HashedW (setLeft n c) := by
  cases n with
  | leaf k v ver h d => exact hn
  | branch k ver lh rh lH rH l r h d =>
      obtain ⟨hWl, hWr, hpar⟩ := hn
      simp only [setLeft, HashedW]
      refine ⟨hc, hWr, fun hdf => ?_⟩
      simp only [Bool.or_eq_false_iff, decide_eq_false_iff_not, not_not] at hdf
      obtain ⟨⟨hd, hcd⟩, hlHc⟩ := hdf
      obtain ⟨hld, hrd, hver, hlalt, hralt, hh⟩ := hpar hd
      have hchne : c.hashOpt ≠ none := hashedW_hashOpt_ne c hc hcd
      have hcl2 : c.hashOpt = l.hashOpt := by
        rcases hlalt with hl1 | hl1
        · rw [← hlHc, hl1]
        · rw [hl1] at hlHc
          exact absurd hlHc.symm hchne
      refine ⟨hcd, hrd, hver, Or.inr trivial, hralt, ?_⟩
      rw [← hcl2] at hh
      exact hh

theorem setRight_hashedW (n c : PNode) (hn : HashedW n) (hc : HashedW c) :
    HashedW (setRight n c) := by
  cases n with
  | leaf k v ver h d => exact hn
  | branch k ver lh rh lH rH l r h d =>
      obtain ⟨hWl, hWr, hpar⟩ := hn
      simp only [setRight, HashedW]
      refine ⟨hWl, hc, fun hdf => ?_⟩
      simp only [Bool.or_eq_false_iff, decide_eq_false_iff_not, not_not] at hdf
      obtain ⟨⟨hd, hcd⟩, hrHc⟩ := hdf
      obtain ⟨hld, hrd, hver, hlalt, hralt, hh⟩ := hpar hd
      have hchne : c.hashOpt ≠ none := hashedW_hashOpt_ne c hc hcd
      have hcr2 : c.hashOpt = r.hashOpt := by
        rcases hralt with hr1 | hr1
        · rw [← hrHc, hr1]
        · rw [hr1] at hrHc
          exact absurd hrHc.symm hchne
      refine ⟨hld, hcd, hver, hlalt, Or.inr trivial, ?_⟩
      rw [← hcr2] at hh
      exact hh

theorem setKey_hashedW (n : PNode) (nk : Bytes) (hn : HashedW n) :
    HashedW (setKey n nk) := by
  cases n with
  | leaf k v ver h d => exact hn
  | branch k ver lh rh lH rH l r h d =>
      simp only [setKey]
      exact hn

theorem leftRotation_hashedW (n : PNode) (hn : HashedW n) :
    HashedW (leftRotation n) := by
  cases n with
  | leaf k v ver h d => exact hn
  | branch k ver lh rh lH rH l r h d =>
      cases r with
      | leaf a b c dd e => exact hn
      | branch rk rver rlh rrh rlH rrH rl rr rh2 rd =>
          obtain ⟨hWl, hWr, hpar⟩ := hn
          obtain ⟨hWrl, hWrr, hrpar⟩ := hWr
          simp only [leftRotation]
          apply setLeft_hashedW
          · exact ⟨hWrl, hWrr, hrpar⟩
          · exact setRight_hashedW _ _ ⟨hWl, ⟨hWrl, hWrr, hrpar⟩, hpar⟩ hWrl

theorem rightRotation_hashedW (n : PNode) (hn : HashedW n) :
    HashedW (rightRotation n) := by
  cases n with
  | leaf k v ver h d => exact hn
  | branch k ver lh rh lH rH l r h d =>
      cases l with
      | leaf a b c dd e => exact hn
      | branch lk lver llh lrh llH lrH ll lr lh2 ld =>
          obtain ⟨hWl, hWr, hpar⟩ := hn
          obtain ⟨hWll, hWlr, hlpar⟩ := hWl
          simp only [rightRotation]
          apply setRight_hashedW
          · exact ⟨hWll, hWlr, hlpar⟩
          · exact setLeft_hashedW _ _ ⟨⟨hWll, hWlr, hlpar⟩, hWr, hpar⟩ hWlr

theorem balance_hashedW (n : PNode) (hn : HashedW n) : HashedW (balance n) := by
  cases n with
  | leaf k v ver h d => exact hn
  | branch k ver lh rh lH rH l r h d =>
      obtain ⟨hWl, hWr, hpar⟩ := hn
      have hn2 : HashedW (.branch k ver lh rh lH rH l r h d) := ⟨hWl, hWr, hpar⟩
      simp only [balance]
      by_cases h1 : (lh : Int) - (rh : Int) = 2
      · rw [if_pos h1]
        by_cases h2 : balanceFactor l < 0
        · rw [if_pos h2]
          exact rightRotation_hashedW _ (setLeft_hashedW _ _ hn2 (leftRotation_hashedW _ hWl))
        · rw [if_neg h2]
          exact rightRotation_hashedW _ hn2
      · rw [if_neg h1]
        by_cases h3 : (lh : Int) - (rh : Int) = -2
        · rw [if_pos h3]
          by_cases h4 : 0 < balanceFactor r
          · rw [if_pos h4]
            exact leftRotation_hashedW _ (setRight_hashedW _ _ hn2 (rightRotation_hashedW _ hWr))
          · rw [if_neg h4]
            exact leftRotation_hashedW _ hn2
        · rw [if_neg h3]
          exact hn2

theorem insert_hashedW (n : PNode) (key value : Bytes) (hn : HashedW n) :
    HashedW (PNode.insert n key value) := by
  induction n with
  | leaf k v ver h d =>
      cases hcc : bufCompare key k with
      | lt =>
          simp only [PNode.insert, hcc, newBranch, HashedW]
          exact ⟨fun hcon => Bool.noConfusion hcon, hn, fun hcon => Bool.noConfusion hcon⟩
      | eq =>
          simp only [PNode.insert, hcc, HashedW]
          exact fun hcon => Bool.noConfusion hcon
      | gt =>
          simp only [PNode.insert, hcc, newBranch, HashedW]
          exact ⟨hn, fun hcon => Bool.noConfusion hcon, fun hcon => Bool.noConfusion hcon⟩
  | branch k ver lh rh lH rH l r h d ihl ihr =>
      obtain ⟨hWl, hWr, hpar⟩ := hn
      have hn2 : HashedW (.branch k ver lh rh lH rH l r h d) := ⟨hWl, hWr, hpar⟩
      cases hcc : bufCompare key k with
      | lt =>
          simp only [PNode.insert, hcc]
          exact balance_hashedW _ (setLeft_hashedW _ _ hn2 (ihl hWl))
      | eq =>
          simp only [PNode.insert, hcc]
          exact balance_hashedW _ (setRight_hashedW _ _ hn2 (ihr hWr))
      | gt =>
          simp only [PNode.insert, hcc]
          exact balance_hashedW _ (setRight_hashedW _ _ hn2 (ihr hWr))

theorem remove_hashedW (n : PNode) (key : Bytes) (hn : HashedW n) :
    ∀ m os, remove n key = (some m, os) → HashedW m := by
  induction n with
  | leaf k v ver h d =>
      intro m os hrm
      by_cases hq : bufCompare key k = .eq
      · simp [remove, hq] at hrm
      · simp [remove, hq] at hrm
        obtain ⟨hm, _⟩ := hrm
        rw [← hm]
        exact hn
  | branch k ver lh rh lH rH l r h d ihl ihr =>
      obtain ⟨hWl, hWr, hpar⟩ := hn
      have hn2 : HashedW (.branch k ver lh rh lH rH l r h d) := ⟨hWl, hWr, hpar⟩
      intro m os hrm
      by_cases hq : bufCompare key k = .lt
      · rcases hml : remove l key with ⟨l1opt, os1⟩
        rcases l1opt with _ | l1
        · simp [remove, hq, hml] at hrm
          obtain ⟨hm, _⟩ := hrm
          rw [← hm]
          exact hWr
        · simp [remove, hq, hml] at hrm
          obtain ⟨hm, _⟩ := hrm
          rw [← hm]
          exact balance_hashedW _ (setLeft_hashedW _ _ hn2 (ihl hWl l1 os1 hml))
      · rcases hmr : remove r key with ⟨r1opt, os1⟩
        rcases r1opt with _ | r1
        · simp [remove, hq, hmr] at hrm
          obtain ⟨hm, _⟩ := hrm
          rw [← hm]
          exact hWl
        · by_cases he : bufCompare key k = .eq
          · simp [remove, hq, hmr, he] at hrm
            obtain ⟨hm, _⟩ := hrm
            rw [← hm]
            exact balance_hashedW _
              (setKey_hashedW _ _ (setRight_hashedW _ _ hn2 (ihr hWr r1 os1 hmr)))
          · simp [remove, hq, hmr, he] at hrm
            obtain ⟨hm, _⟩ := hrm
            rw [← hm]
            exact balance_hashedW _ (setRight_hashedW _ _ hn2 (ihr hWr r1 os1 hmr))

theorem persist_hashOpt_false (v : Nat) (n : PNode) (hd : n.dirty = false) :
    (persist v n).1.hashOpt = n.hashOpt := by
  cases n with
  | leaf k val ver h d =>
      have hd2 : d = false := hd
      subst hd2
      rw [persist_leaf_false]
  | branch k ver lh rh lH rH l r h d =>
      have hd2 : d = false := hd
      subst hd2
      rw [persist_node_false]
      rfl

theorem persist_hashedW (v : Nat) (n : PNode) (hn : HashedW n) :
    Hashed (persist v n).1 := by
  induction n with
  | leaf k val ver h d =>
      cases d with
      | true => simp [persist, Hashed]
      | false =>
          rw [persist_leaf_false]
          exact hn rfl
  | branch k ver lh rh lH rH l r h d ihl ihr =>
      obtain ⟨hWl, hWr, hpar⟩ := hn
      cases d with
      | true =>
          rw [persist_node_true]
          simp only [Hashed]
          refine ⟨ihl hWl, ihr hWr, ?_, ?_, ?_, by trivial, by trivial, by trivial⟩
          · simp
          · exact hashed_hashOpt_ne _ (ihl hWl)
          · exact hashed_hashOpt_ne _ (ihr hWr)
      | false =>
          obtain ⟨hld, hrd, hver, hlalt, hralt, hh⟩ := hpar rfl
          rw [persist_node_false]
          simp only [Hashed]
          refine ⟨ihl hWl, ihr hWr, hver, ?_, ?_, by trivial, by trivial, ?_⟩
          · exact hashed_hashOpt_ne _ (ihl hWl)
          · exact hashed_hashOpt_ne _ (ihr hWr)
          · rw [persist_hashOpt_false v l hld, persist_hashOpt_false v r hrd]
            exact hh

theorem treeApply_hco (st : Option PNode × Nat) (op : Op) (hI : HCO st.1) :
    HCO (treeApply st op).1 := by
  rcases st with ⟨root, ver⟩
  cases op with
  | ins k v =>
      cases root with
      | none =>
          simp only [treeApply]
          exact ⟨persist_hashedW _ _ (fun hcon => Bool.noConfusion hcon),
            persist_clean _ _⟩
      | some r =>
          obtain ⟨hH, hc⟩ := hI
          simp only [treeApply]
          exact ⟨persist_hashedW _ _ (insert_hashedW r k v (hashed_clean_hashedW r hH hc)),
            persist_clean _ _⟩
  | del k =>
      cases root with
      | none => exact trivial
      | some r =>
          obtain ⟨hH, hc⟩ := hI
          simp only [treeApply]
          rcases hrm : (remove r k).1 with _ | r1
          · simp only [hrm]
            exact trivial
          · have hfull : remove r k = (some r1, (remove r k).2) := by
              rw [← hrm]
            simp only [hrm]
            exact ⟨persist_hashedW _ _
              (remove_hashedW r k (hashed_clean_hashedW r hH hc) r1 _ hfull),
              persist_clean _ _⟩

theorem runOps_hco (ops : List Op) : ∀ st : Option PNode × Nat, HCO st.1 →
    HCO (ops.foldl treeApply st).1 := by
  induction ops with
  | nil => intro st h; exact h
  | cons op rest ih =>
      intro st h
      exact ih _ (treeApply_hco st op h)


/-! ## Hash-chain verification -/

theorem chain_append (h0 : Hash) (A B : List ProofBranch) :
    chain h0 (A ++ B) = (chain h0 A).bind fun hh => chain hh B := by
  induction A generalizing h0 with
  | nil => rfl
  | cons e rest ih =>
      obtain ⟨vv, lopt, ropt⟩ := e
      rcases lopt with _ | lhh
      · rcases ropt with _ | rhh
        · rfl
        · simp only [List.cons_append, chain]
          exact ih _
      · simp only [List.cons_append, chain]
        exact ih _

theorem chain_path (n : PNode) (key : Bytes) (hH : Hashed n) (h0 : Hash) :
    chain h0 ((pathBranches n key).map (branchEntry key)) = some (rebuild n key h0) := by
  induction n generalizing h0 with
  | leaf k v ver h d => rfl
  | branch k ver lh rh lH rH l r h d ihl ihr =>
      obtain ⟨hHl, hHr, hver, hlne, hrne, hlHe, hrHe, hh⟩ := hH
      rcases lH with _ | lhash
      · exact absurd rfl hlne
      rcases rH with _ | rhash
      · exact absurd rfl hrne
      by_cases hq : bufCompare key k = .lt
      · simp only [pathBranches, if_pos hq, List.map_append, List.map_cons, List.map_nil,
          chain_append, ihl hHl, Option.some_bind, branchEntry, rebuild]
        simp only [chain]
        rw [← hrHe]
        rfl
      · simp only [pathBranches, if_neg hq, List.map_append, List.map_cons, List.map_nil,
          chain_append, ihr hHr, Option.some_bind, branchEntry, rebuild]
        simp only [chain]
        rw [← hlHe]
        rfl

theorem hashOpt_leaf (k v : Bytes) (ver : Option Nat) (h : Option Hash) (d : Bool) :
    (PNode.leaf k v ver h d).hashOpt = h := rfl

theorem hashOpt_branch (k : Bytes) (ver : Option Nat) (lh rh : Nat) (lH rH : Option Hash)
    (l r : PNode) (h : Option Hash) (d : Bool) :
    (PNode.branch k ver lh rh lH rH l r h d).hashOpt = h := rfl

theorem rebuild_landing (n : PNode) (key : Bytes) (hH : Hashed n) :
    rebuild n key (Hash.fromOpt (landing n key).hashOpt) = Hash.fromOpt n.hashOpt := by
  induction n with
  | leaf k v ver h d => rfl
  | branch k ver lh rh lH rH l r h d ihl ihr =>
      obtain ⟨hHl, hHr, hver, hlne, hrne, hlHe, hrHe, hh⟩ := hH
      rcases ver with _ | vn
      · exact absurd rfl hver
      have hsome : h = some (Hash.hBranch vn (Hash.fromOpt lH) (Hash.fromOpt rH)) := hh
      by_cases hq : bufCompare key k = .lt
      · simp only [landing, if_pos hq, rebuild]
        rw [ihl hHl, hashOpt_branch, hsome, hlHe, hrHe]
        rfl
      · simp only [landing, if_neg hq, rebuild]
        rw [ihr hHr, hashOpt_branch, hsome, hlHe, hrHe]
        rfl

theorem rebuild_inj (n : PNode) (key : Bytes) (hH : Hashed n) (h0 : Hash)
    (he : rebuild n key h0 = Hash.fromOpt n.hashOpt) :
    h0 = Hash.fromOpt (landing n key).hashOpt := by
  induction n with
  | leaf k v ver h d => exact he
  | branch k ver lh rh lH rH l r h d ihl ihr =>
      obtain ⟨hHl, hHr, hver, hlne, hrne, hlHe, hrHe, hh⟩ := hH
      rcases ver with _ | vn
      · exact absurd rfl hver
      have hsome : h = some (Hash.hBranch vn (Hash.fromOpt lH) (Hash.fromOpt rH)) := hh
      by_cases hq : bufCompare key k = .lt
      · simp only [rebuild, if_pos hq, hashOpt, hsome, Hash.fromOpt] at he
        injection he with h1 h2 h3
        rw [hlHe] at h2
        simp only [landing, if_pos hq]
        exact ihl hHl h2
      · simp only [rebuild, if_neg hq, hashOpt, hsome, Hash.fromOpt] at he
        injection he with h1 h2 h3
        rw [hrHe] at h3
        simp only [landing, if_neg hq]
        exact ihr hHr h3

theorem find_eq_landing (n : PNode) (key : Bytes) :
    find n key =
      if bufCompare key (pkey (landing n key)) = .eq then some (landing n key)
      else none := by
  induction n with
  | leaf a b c dd e => rfl
  | branch k ver lh rh lH rH l r h d ihl ihr =>
      by_cases hq : bufCompare key k = .lt
      · simp only [find, landing, if_pos hq]
        exact ihl
      · simp only [find, landing, if_neg hq]
        exact ihr

theorem hashed_landing (n : PNode) (key : Bytes) (hH : Hashed n) :
    Hashed (landing n key) := by
  induction n with
  | leaf k v ver h d => exact hH
  | branch k ver lh rh lH rH l r h d ihl ihr =>
      obtain ⟨hHl, hHr, _⟩ := hH
      by_cases hq : bufCompare key k = .lt
      · simp only [landing, if_pos hq]
        exact ihl hHl
      · simp only [landing, if_neg hq]
        exact ihr hHr

theorem verify_iff_get_hashed (root : Option PNode) (k v : Bytes) (hH : HashedO root) :
    getAndVerifyOk root k v ↔ getVal root k = some v := by
  cases root with
  | none =>
      constructor
      · rintro ⟨p, hp, _⟩
        exact absurd hp (by simp [getProof])
      · intro hv
        exact absurd hv (by simp [getVal])
  | some n =>
      have hHn : Hashed n := hH
      obtain ⟨a, b, c, dd, e, hl⟩ := landing_is_leaf n k
      have hHL := hashed_landing n k hHn
      rw [hl] at hHL
      obtain ⟨hcne, hdd⟩ := hHL
      rcases c with _ | cv
      · exact absurd rfl hcne
      have hdds : dd = some (Hash.hLeaf cv a b) := hdd
      have hnne : n.hashOpt ≠ none := hashed_hashOpt_ne n hHn
      have hns : n.hashOpt = some (Hash.fromOpt n.hashOpt) := hashOpt_some_fromOpt n hnne
      have hproof := getProof_eq n k a b (some cv) dd e hl
      have hchain := chain_path n k hHn (Hash.hLeaf cv k b)
      constructor
      · rintro ⟨p, hp, hv⟩
        rw [hproof] at hp
        have hpe : p = (((some cv : Option Nat).getD 0, k, b),
            (pathBranches n k).map (branchEntry k)) := (Option.some_inj.1 hp).symm
        subst hpe
        simp only [verifyProof, bufCompare_self, rootHashOf, Option.some_bind,
          Option.getD_some, ne_eq, not_true_eq_false, if_false, hchain] at hv
        by_cases hbv : bufCompare b v = .eq
        · have hb : b = v := (bufCompare_eq_iff b v).1 hbv
          subst hb
          rw [if_neg (by simp [hbv])] at hv
          by_cases hroot : hashOpt n = some (rebuild n k (Hash.hLeaf cv k b))
          · have hreq : rebuild n k (Hash.hLeaf cv k b) = Hash.fromOpt n.hashOpt :=
              (Option.some_inj.1 (hns.symm.trans hroot)).symm
            have heq : Hash.hLeaf cv k b = Hash.fromOpt (landing n k).hashOpt :=
              rebuild_inj n k hHn _ hreq
            rw [hl] at heq
            rw [show (PNode.leaf a b (some cv) dd e).hashOpt = dd from rfl, hdds] at heq
            have hk : k = a := by
              rw [show Hash.fromOpt (some (Hash.hLeaf cv a b)) = Hash.hLeaf cv a b
                from rfl] at heq
              injection heq with h1 h2 h3
              all_goals exact h2
            simp only [getVal, find_eq_landing n k, hl, pkey]
            rw [hk, if_pos (bufCompare_self a)]
            simp [pval]
          · rw [if_neg hroot] at hv
            exact Except.noConfusion hv
        · rw [if_pos hbv] at hv
          exact Except.noConfusion hv
      · intro hv
        simp only [getVal, find_eq_landing n k, hl, pkey] at hv
        by_cases hka : bufCompare k a = .eq
        · rw [if_pos hka] at hv
          simp only [Option.map_some', pval] at hv
          have hbv : b = v := Option.some_inj.1 hv
          subst hbv
          have hk : k = a := (bufCompare_eq_iff k a).1 hka
          refine ⟨((cv, k, b), (pathBranches n k).map (branchEntry k)), hproof, ?_⟩
          have hlh : Hash.hLeaf cv k b = Hash.fromOpt (landing n k).hashOpt := by
            rw [hl]
            rw [show (PNode.leaf a b (some cv) dd e).hashOpt = dd from rfl, hdds]
            rw [hk]
            rfl
          have hcond : n.hashOpt = some (rebuild n k (Hash.hLeaf cv k b)) := by
            rw [hlh, rebuild_landing n k hHn]
            exact hns
          simp only [verifyProof, bufCompare_self, rootHashOf, Option.some_bind,
            ne_eq, not_true_eq_false, if_false, hchain, hcond]
          simp
        · rw [if_neg hka] at hv
          simp at hv

/-! ## Claim theorem C2 -/

/-- C2: on every tree reachable by a sequence of facade operations (after each
of which the root is freshly persisted), the composite call
`tree.verifyProof(tree.getProof(key), key, value)` succeeds exactly when
`tree.get(key)` returns `value`: soundness comes from the collision-free hash
chain pinning down the landing leaf, completeness from recomputing the root
hash along the search path. -/
theorem c2_verify_iff_get (ops : List Op) (k v : Bytes) :
    getAndVerifyOk (applyOps ops) k v ↔ getVal (applyOps ops) k = some v := by
  apply verify_iff_get_hashed
  have h := runOps_hco ops (none, 0) trivial
  rw [applyOps]
  rcases hr : (ops.foldl treeApply (none, 0)).1 with _ | n
  · exact trivial
  · rw [hr] at h
    exact h.1


/-! ## Claim C8: neighbor search -/

/-- C8 counterexample: the one-leaf tree is NOT empty, the key `[9]` is absent
from it, yet both neighbor searches return `undefined`: `findLeftNeighbor` and
`findRightNeighbor` bail out (`!(node instanceof Branch)`) on a Leaf root, so a
single-leaf tree admits a non-existence proof with no neighbor at all. -/
theorem c8_cex_single_leaf_no_neighbor :
    find leafW [9] = none ∧ (some leafW).isSome = true ∧
    findLeftNeighborN [9] leafW = none ∧ findRightNeighborN [9] leafW = none := by
  decide

/-- C8 (amended): when the root is a `Branch` (the tree holds at least two
leaves) and the query key is absent, at least one of the two neighbor searches
succeeds; with a `Leaf` root (a non-empty one-leaf tree!) both fail, so the
correct condition for "both absent" is a tree with fewer than two leaves, not
an empty tree. -/
theorem c8_neighbor_exists (n : PNode) (key : Bytes)
    (hbr : isBranchB n = true) (ho : OrderedN n) (hs : SplitKeyAll n)
    (habs : find n key = none) :
    (findLeftNeighborN key n).isSome = true ∨
    (findRightNeighborN key n).isSome = true := by
  cases n with
  | leaf k v ver h d => exact absurd hbr (by simp [isBranchB])
  | branch k ver lh rh lH rH l r h d =>
      simp only [SplitKeyAll] at hs
      obtain ⟨hsk, hsl, hsr⟩ := hs
      have hnotmem : key ∉ keys (.branch k ver lh rh lH rH l r h d) :=
        (find_none_iff key _ ho).1 habs
      have hkmem : k ∈ keys (.branch k ver lh rh lH rH l r h d) := by
        rw [keys_branch, hsk]
        exact List.mem_append.2 (Or.inr (leftmost_mem_keys r))
      have hne : ¬ bufCompare key k = .eq := by
        intro hcon
        rw [(bufCompare_eq_iff key k).1 hcon] at hnotmem
        exact hnotmem hkmem
      rcases hcmp : bufCompare key k with _ | _ | _
      · right
        simp only [findRightNeighborN, if_pos hcmp]
        rcases findRightNeighborN key l with _ | m <;> simp
      · exact absurd hcmp hne
      · left
        simp only [findLeftNeighborN, if_pos hcmp]
        rcases findLeftNeighborN key r with _ | m <;> simp

/-- Witness for C8: the two-leaf tree `branchW` and the absent key `[3]`. -/
theorem c8_neighbor_exists_witness :
    isBranchB branchW = true ∧
    ((findLeftNeighborN [3] branchW).isSome = true ∨
     (findRightNeighborN [3] branchW).isSome = true) :=
  ⟨by decide, c8_neighbor_exists branchW [3] (by decide) (by decide) (by decide)
    (by decide)⟩


/-! ## Claim C5: prune -/

/-- C5 counterexample: `prune` with `toVersion = 9`, `fromVersion = 5` also
consumes the orphan record whose toVersion is 4 — outside the claimed closed
interval [5, 9] — because the lmdb range scan starts at the 4-byte prefix
`u32be(fromVersion - 1)` and every full 40-byte orphan key extending that
prefix sorts strictly after it: the record is removed and its node deleted,
not left untouched. -/
theorem c5_cex_prune_window :
    storeW.orphans = [(4, 3, hashW2)] ∧ storeW.nodes = [hashW2] ∧
    (prune storeW 9 5).orphans = [] ∧ (prune storeW 9 5).nodes = [] := by
  decide

theorem mem_orphanPut (os : List OrphanKey) (e o : OrphanKey) :
    o ∈ orphanPut os e ↔ o ∈ os ∨ o = e := by
  rw [orphanPut]
  by_cases he : e ∈ os
  · rw [if_pos he]
    constructor
    · exact Or.inl
    · rintro (h | rfl)
      · exact h
      · exact he
  · rw [if_neg he]
    simp

theorem pruneStep_orphans (prevV : Nat) (st : StoreSt) (t : OrphanKey) (h1 : 1 ≤ t.2.1)
    (o : OrphanKey) :
    o ∈ (pruneStep prevV st t).orphans ↔
      (o ∈ st.orphans ∧ o ≠ t) ∨ (t.2.1 ≤ prevV ∧ o = (prevV, t.2.1, t.2.2)) := by
  by_cases hc : prevV < t.2.1
  · simp only [pruneStep, if_pos hc]
    simp only [List.mem_filter, decide_eq_true_eq]
    constructor
    · intro h
      exact Or.inl h
    · rintro (h | ⟨hle, _⟩)
      · exact h
      · omega
  · rcases hp : prevV with _ | pv
    · subst hp
      exact absurd h1 (by omega)
    · subst hp
      simp only [pruneStep, if_neg hc, putOrphan]
      rw [mem_orphanPut]
      simp only [List.mem_filter, decide_eq_true_eq]
      constructor
      · rintro (⟨hmem, hne⟩ | heq)
        · exact Or.inl ⟨hmem, hne⟩
        · exact Or.inr ⟨by omega, heq⟩
      · rintro (⟨hmem, hne⟩ | ⟨hle, heq⟩)
        · exact Or.inl ⟨hmem, hne⟩
        · exact Or.inr heq

theorem pruneStep_nodes (prevV : Nat) (st : StoreSt) (t : OrphanKey) (h1 : 1 ≤ t.2.1)
    (hh : Hash) :
    hh ∈ (pruneStep prevV st t).nodes ↔
      hh ∈ st.nodes ∧ ¬ (prevV < t.2.1 ∧ t.2.2 = hh) := by
  by_cases hc : prevV < t.2.1
  · simp only [pruneStep, if_pos hc]
    simp only [List.mem_filter, decide_eq_true_eq]
    constructor
    · rintro ⟨hmem, hne⟩
      exact ⟨hmem, fun hcon => hne hcon.2.symm⟩
    · rintro ⟨hmem, hnot⟩
      exact ⟨hmem, fun hcon => hnot ⟨hc, hcon.symm⟩⟩
  · rcases hp : prevV with _ | pv
    · subst hp
      exact absurd h1 (by omega)
    · subst hp
      simp only [pruneStep, if_neg hc, putOrphan]
      constructor
      · intro hmem
        exact ⟨hmem, fun hcon => hc hcon.1⟩
      · exact And.left

theorem pruneStep_frame (prevV : Nat) (st : StoreSt) (t : OrphanKey) (h1 : 1 ≤ t.2.1) :
    (pruneStep prevV st t).versions = st.versions ∧
    (pruneStep prevV st t).version = st.version ∧
    (pruneStep prevV st t).txDepth = st.txDepth := by
  by_cases hc : prevV < t.2.1
  · simp [pruneStep, hc]
  · rcases hp : prevV with _ | pv
    · subst hp
      exact absurd h1 (by omega)
    · subst hp
      simp only [pruneStep, if_neg hc, putOrphan]
      exact ⟨trivial, trivial, trivial⟩

theorem prune_fold_inv (prevV : Nat) (todo : List OrphanKey) :
    ∀ st : StoreSt, (∀ x ∈ todo, 1 ≤ x.2.1) →
    ((∀ o, o ∈ (todo.foldl (pruneStep prevV) st).orphans ↔
        (o ∈ st.orphans ∧ o ∉ todo) ∨
        ∃ x ∈ todo, x.2.1 ≤ prevV ∧ o = (prevV, x.2.1, x.2.2)) ∧
     (∀ hh, hh ∈ (todo.foldl (pruneStep prevV) st).nodes ↔
        hh ∈ st.nodes ∧ ¬ ∃ x ∈ todo, prevV < x.2.1 ∧ x.2.2 = hh) ∧
     (todo.foldl (pruneStep prevV) st).versions = st.versions ∧
     (todo.foldl (pruneStep prevV) st).version = st.version ∧
     (todo.foldl (pruneStep prevV) st).txDepth = st.txDepth) := by
  induction todo with
  | nil =>
      intro st h1
      refine ⟨fun o => ?_, fun hh => ?_, rfl, rfl, rfl⟩
      · simp
      · simp
  | cons t rest ih =>
      intro st h1
      have h1t : 1 ≤ t.2.1 := h1 t (List.mem_cons_self t rest)
      have h1r : ∀ x ∈ rest, 1 ≤ x.2.1 := fun x hx => h1 x (List.mem_cons_of_mem t hx)
      obtain ⟨ihO, ihN, ihV, ihv2, ihd⟩ := ih (pruneStep prevV st t) h1r
      rw [List.foldl_cons]
      refine ⟨fun o => ?_, fun hh => ?_, ?_, ?_, ?_⟩
      · rw [ihO o, pruneStep_orphans prevV st t h1t o]
        have hkey : (t.2.1 ≤ prevV ∧ o = (prevV, t.2.1, t.2.2)) → o ∈ rest →
            ∃ x ∈ rest, x.2.1 ≤ prevV ∧ o = (prevV, x.2.1, x.2.2) := by
          rintro ⟨hle, rfl⟩ hmem
          exact ⟨(prevV, t.2.1, t.2.2), hmem, hle, rfl⟩
        simp only [List.mem_cons]
        constructor
        · rintro (⟨⟨hmem, hne⟩ | hrw, hnr⟩ | ⟨x, hx, hxle, hxo⟩)
          · exact Or.inl ⟨hmem, fun hcon => hcon.elim hne hnr⟩
          · exact Or.inr ⟨t, Or.inl rfl, hrw.1, hrw.2⟩
          · exact Or.inr ⟨x, Or.inr hx, hxle, hxo⟩
        · rintro (⟨hmem, hnot⟩ | ⟨x, hx | hx, hxle, hxo⟩)
          · exact Or.inl ⟨Or.inl ⟨hmem, fun hcon => hnot (Or.inl hcon)⟩,
              fun hcon => hnot (Or.inr hcon)⟩
          · subst hx
            by_cases hor : o ∈ rest
            · exact Or.inr (hkey ⟨hxle, hxo⟩ hor)
            · exact Or.inl ⟨Or.inr ⟨hxle, hxo⟩, hor⟩
          · exact Or.inr ⟨x, hx, hxle, hxo⟩
      · rw [ihN hh, pruneStep_nodes prevV st t h1t hh]
        simp only [List.mem_cons]
        constructor
        · rintro ⟨⟨hmem, hn1⟩, hn2⟩
          refine ⟨hmem, ?_⟩
          rintro ⟨x, hx | hx, hlt, hxh⟩
          · subst hx
            exact hn1 ⟨hlt, hxh⟩
          · exact hn2 ⟨x, hx, hlt, hxh⟩
        · rintro ⟨hmem, hnot⟩
          refine ⟨⟨hmem, fun hcon => hnot ⟨t, Or.inl rfl, hcon⟩⟩, fun hcon => ?_⟩
          obtain ⟨x, hx, hlt, hxh⟩ := hcon
          exact hnot ⟨x, Or.inr hx, hlt, hxh⟩
      · rw [ihV, (pruneStep_frame prevV st t h1t).1]
      · rw [ihv2, (pruneStep_frame prevV st t h1t).2.1]
      · rw [ihd, (pruneStep_frame prevV st t h1t).2.2]

/-- C5 (amended): `prune(toV, fromV)` scans the orphans whose toVersion lies in
the closed interval `[fromV - 1, toV]` (one version EARLIER than the claim's
`[fromV, toV]`): every scanned record is removed; a scanned record with
`prevV < fromVersion-of-the-orphan` has its node deleted, and one with
`fromVersion-of-the-orphan ≤ prevV` is rewritten with toVersion `prevV`
(where `prevV` is the largest retained version at or below `fromV - 1`, 0 when
none); orphans with toVersion outside `[fromV - 1, toV]` are untouched, and
exactly the versions-table entries in `[fromV, toV]` are removed.  The
hypothesis that every orphan's fromVersion is at least 1 reflects that node
versions start at 1, keeping `putOrphan`'s falsy-zero default out of play. -/
theorem c5_prune_characterization (s : StoreSt) (toV fromV : Nat)
    (h1 : ∀ o ∈ s.orphans, 1 ≤ o.2.1) :
    (∀ o : OrphanKey, o ∈ (prune s toV fromV).orphans ↔
        (o ∈ s.orphans ∧ ¬ (fromV - 1 ≤ o.1 ∧ o.1 ≤ toV)) ∨
        ∃ x ∈ s.orphans, (fromV - 1 ≤ x.1 ∧ x.1 ≤ toV) ∧
          x.2.1 ≤ maxKeyLE s.versions (fromV - 1) ∧
          o = (maxKeyLE s.versions (fromV - 1), x.2.1, x.2.2)) ∧
    (∀ hh : Hash, hh ∈ (prune s toV fromV).nodes ↔
        hh ∈ s.nodes ∧ ¬ ∃ x ∈ s.orphans, (fromV - 1 ≤ x.1 ∧ x.1 ≤ toV) ∧
          maxKeyLE s.versions (fromV - 1) < x.2.1 ∧ x.2.2 = hh) ∧
    (∀ p : Nat × Option Hash, p ∈ (prune s toV fromV).versions ↔
        p ∈ s.versions ∧ ¬ (fromV ≤ p.1 ∧ p.1 ≤ toV)) := by
  have h1s : ∀ x ∈ s.orphans.filter
      (fun o => decide (fromV - 1 ≤ o.1 ∧ o.1 ≤ toV)), 1 ≤ x.2.1 := fun x hx =>
    h1 x (List.mem_of_mem_filter hx)
  obtain ⟨hO, hN, hV, _, _⟩ :=
    prune_fold_inv (maxKeyLE s.versions (fromV - 1))
      (s.orphans.filter (fun o => decide (fromV - 1 ≤ o.1 ∧ o.1 ≤ toV))) s h1s
  refine ⟨fun o => ?_, fun hh => ?_, fun p => ?_⟩
  · have hor : (prune s toV fromV).orphans =
        ((s.orphans.filter (fun o => decide (fromV - 1 ≤ o.1 ∧ o.1 ≤ toV))).foldl
          (pruneStep (maxKeyLE s.versions (fromV - 1))) s).orphans := rfl
    rw [hor, hO o]
    simp only [List.mem_filter, decide_eq_true_eq]
    constructor
    · rintro (⟨hmem, hnot⟩ | ⟨x, ⟨hxm, hxs⟩, hxle, hxo⟩)
      · exact Or.inl ⟨hmem, fun hs => hnot ⟨hmem, hs⟩⟩
      · exact Or.inr ⟨x, hxm, hxs, hxle, hxo⟩
    · rintro (⟨hmem, hnot⟩ | ⟨x, hxm, hxs, hxle, hxo⟩)
      · exact Or.inl ⟨hmem, fun hcon => hnot hcon.2⟩
      · exact Or.inr ⟨x, ⟨hxm, hxs⟩, hxle, hxo⟩
  · have hnd : (prune s toV fromV).nodes =
        ((s.orphans.filter (fun o => decide (fromV - 1 ≤ o.1 ∧ o.1 ≤ toV))).foldl
          (pruneStep (maxKeyLE s.versions (fromV - 1))) s).nodes := rfl
    rw [hnd, hN hh]
    simp only [List.mem_filter, decide_eq_true_eq]
    constructor
    · rintro ⟨hmem, hnot⟩
      exact ⟨hmem, fun hcon => hnot
        ⟨hcon.choose, ⟨hcon.choose_spec.1, hcon.choose_spec.2.1⟩,
          hcon.choose_spec.2.2⟩⟩
    · rintro ⟨hmem, hnot⟩
      refine ⟨hmem, ?_⟩
      rintro ⟨x, ⟨hxm, hxs⟩, hlt, hxh⟩
      exact hnot ⟨x, hxm, hxs, hlt, hxh⟩
  · have hvs : (prune s toV fromV).versions =
        ((s.orphans.filter (fun o => decide (fromV - 1 ≤ o.1 ∧ o.1 ≤ toV))).foldl
          (pruneStep (maxKeyLE s.versions (fromV - 1))) s).versions.filter
          (fun q => decide (¬ (fromV ≤ q.1 ∧ q.1 ≤ toV))) := rfl
    rw [hvs, hV]
    simp [List.mem_filter]
    intro _
    omega

/-- Witness for C5 at the concrete store `storeW`, instantiating the orphan
characterization at the record that the claim says should be untouched. -/
theorem c5_prune_characterization_witness :
    (∀ o ∈ storeW.orphans, 1 ≤ o.2.1) ∧
    ((4, 3, hashW2) ∈ (prune storeW 9 5).orphans ↔
        ((4, 3, hashW2) ∈ storeW.orphans ∧
          ¬ (5 - 1 ≤ (4, 3, hashW2).1 ∧ (4, 3, hashW2).1 ≤ 9)) ∨
        ∃ x ∈ storeW.orphans, (5 - 1 ≤ x.1 ∧ x.1 ≤ 9) ∧
          x.2.1 ≤ maxKeyLE storeW.versions (5 - 1) ∧
          (4, 3, hashW2) = (maxKeyLE storeW.versions (5 - 1), x.2.1, x.2.2)) :=
  ⟨by decide, (c5_prune_characterization storeW 9 5 (by decide)).1 (4, 3, hashW2)⟩


/-! ## Claim C6: transactions and the version counter -/

theorem runTx_inner (ops : List TxOp) :
    ∀ s : StoreSt, 1 ≤ s.txDepth → innerOk s ops = true →
      ∀ s2, runTx s ops = some s2 → s2.version = s.version ∧ 1 ≤ s2.txDepth := by
  induction ops with
  | nil =>
      intro s hd _ s2 h2
      simp only [runTx] at h2
      rw [← Option.some_inj.1 h2]
      exact ⟨rfl, hd⟩
  | cons op rest ih =>
      intro s hd hok s2 h2
      simp only [runTx] at h2
      simp only [innerOk] at hok
      rcases hstep : txStep s op with _ | s1
      · rw [hstep] at hok
        simp at hok
      · rw [hstep] at h2 hok
        simp only [Bool.and_eq_true, decide_eq_true_eq] at hok
        obtain ⟨hd1, hok1⟩ := hok
        have hver : s1.version = s.version := by
          cases op with
          | txn =>
              simp only [txStep] at hstep
              rw [← Option.some_inj.1 hstep]
              rw [if_neg (by omega)]
          | start =>
              simp only [txStep] at hstep
              rw [← Option.some_inj.1 hstep]
              rw [if_neg (by omega)]
          | commit =>
              simp only [txStep] at hstep
              rw [if_neg (by omega)] at hstep
              rw [← Option.some_inj.1 hstep]
          | revert =>
              simp only [txStep] at hstep
              rw [if_neg (by omega)] at hstep
              have hs1 := Option.some_inj.1 hstep
              have hd1b : 1 ≤ s.txDepth - 1 := by
                rw [← hs1] at hd1
                exact hd1
              rw [← hs1]
              rw [if_neg (by omega)]
        obtain ⟨hv2, hd2⟩ := ih s1 hd1 hok1 s2 h2
        exact ⟨hv2.trans hver, hd2⟩

/-- C6: version monotonicity per commit: a top-level `transaction` call bumps
the version by exactly 1; `startTransaction` at depth 0 bumps it by 1, inner
operations that never close the outermost frame leave it unchanged, a closing
outermost `commitTransaction` keeps the version at `prev + 1`, and a closing
outermost `revertTransaction` restores `prev` — so inner commits and reverts
never move the counter. -/
theorem c6_version_monotone (s : StoreSt) (hdepth : s.txDepth = 0) :
    (txStep s .txn = some { s with version := s.version + 1 }) ∧
    (txStep s .start = some { s with version := s.version + 1, txDepth := 1 }) ∧
    (∀ (ops : List TxOp) (s1 s2 : StoreSt),
      txStep s .start = some s1 → innerOk s1 ops = true → runTx s1 ops = some s2 →
      s2.version = s.version + 1 ∧
      (s2.txDepth = 1 →
        (∀ s3, txStep s2 .commit = some s3 →
          s3.version = s.version + 1 ∧ s3.txDepth = 0) ∧
        (∀ s3, txStep s2 .revert = some s3 →
          s3.version = s.version ∧ s3.txDepth = 0))) := by
  refine ⟨?_, ?_, ?_⟩
  · simp [txStep, hdepth]
  · simp [txStep, hdepth]
  · intro ops s1 s2 hst hok hrun
    have hst2 : s1 = { s with version := s.version + 1, txDepth := s.txDepth + 1 } := by
      have hcalc : txStep s .start =
          some { s with version := s.version + 1, txDepth := s.txDepth + 1 } := by
        simp [txStep, hdepth]
      rw [hcalc] at hst
      exact (Option.some_inj.1 hst).symm
    obtain ⟨hv1, hdep1⟩ := runTx_inner ops s1
      (by rw [hst2]; exact Nat.succ_le_succ (Nat.zero_le _)) hok s2 hrun
    refine ⟨?_, ?_⟩
    · rw [hv1, hst2]
    · intro hsd2
      constructor
      · intro s3 hc3
        simp only [txStep] at hc3
        rw [if_neg (by omega)] at hc3
        rw [← Option.some_inj.1 hc3]
        refine ⟨?_, ?_⟩
        · show s2.version = s.version + 1
          rw [hv1, hst2]
        · show s2.txDepth - 1 = 0
          omega
      · intro s3 hr3
        simp only [txStep] at hr3
        rw [if_neg (by omega)] at hr3
        rw [← Option.some_inj.1 hr3]
        refine ⟨?_, ?_⟩
        · show (if s2.txDepth = 1 then s2.version - 1 else s2.version) = s.version
          rw [if_pos hsd2, hv1, hst2]
          show s.version + 1 - 1 = s.version
          omega
        · show s2.txDepth - 1 = 0
          omega

/-- Witness for C6 at the concrete store `storeW` (transaction depth 0). -/
theorem c6_version_monotone_witness :
    storeW.txDepth = 0 ∧
    txStep storeW .txn = some { storeW with version := storeW.version + 1 } :=
  ⟨rfl, (c6_version_monotone storeW rfl).1⟩

end Iavl
